import Mathlib

/-!
Verification of the memtable / write-ahead-log layer of the badger
key-value store (`src/memtable.go`), as a shallow embedding in Lean.

Byte sequences are `List Nat` (each element a byte value), machine
integers are `Nat` with explicit `% 2 ^ w` where the Go code converts
between integer widths, fallible Go functions return `Except`/`Option`,
and the mutable structures (`logFile`, `memTable`, `DB`) are passed as
explicit state.  Components of the repository that are not part of
`src/` (the varint record header, the byte reader, the timestamp
parser, the AES-CTR cipher, the sorted map) are modelled from the
specification, as marked by their doc comments.
-/

deriving instance DecidableEq for Except

/-! ## Byte-level helpers -/

/-- Big-endian 4-byte encoding of a 32-bit number, as produced by Go's
`binary.BigEndian.PutUint32`. -/
def be32 (n : Nat) : List Nat :=
  [n / 2 ^ 24 % 256, n / 2 ^ 16 % 256, n / 2 ^ 8 % 256, n % 256]

/-- Big-endian 8-byte encoding of a 64-bit number, as produced by Go's
`binary.BigEndian.PutUint64`. -/
def be64 (n : Nat) : List Nat :=
  [n / 2 ^ 56 % 256, n / 2 ^ 48 % 256, n / 2 ^ 40 % 256, n / 2 ^ 32 % 256,
   n / 2 ^ 24 % 256, n / 2 ^ 16 % 256, n / 2 ^ 8 % 256, n % 256]

/-- Big-endian decoding of a byte list (Go's `binary.BigEndian.Uint64`
on 8 bytes). -/
def beDec (bs : List Nat) : Nat :=
  bs.foldl (fun a b => a * 256 + b) 0

/-- Modelled from the spec: the timestamp parser collaborator
(`y.ParseTs`), a pure function reading the trailing 8 bytes of a key as
a big-endian 64-bit transaction timestamp; keys too short to carry a
timestamp yield 0. -/
def parseTs (key : List Nat) : Nat :=
  if key.length < 8 then 0 else beDec (key.drop (key.length - 8))

/-- Fuel-based worker for `putUvarint` (structural recursion keeps the
function kernel-computable; `fuel ≥ n` suffices). -/
def putUvarintAux : Nat → Nat → List Nat
  | 0, n => [n % 128]
  | fuel + 1, n =>
    if n < 128 then [n] else (n % 128 + 128) :: putUvarintAux fuel (n / 128)

/-- Modelled from the spec: standard varint encoding (Go's
`binary.PutUvarint`): 7 bits per byte, least-significant group first,
high bit marks continuation. -/
def putUvarint (n : Nat) : List Nat :=
  putUvarintAux n n

/-- Modelled from the spec: standard varint decoding (Go's
`binary.Uvarint`); returns the decoded value and the number of bytes
consumed, or `none` on a truncated buffer. -/
def uvarintDec : List Nat → Option (Nat × Nat)
  | [] => none
  | b :: rest =>
    if b < 128 then some (b, 1)
    else
      match uvarintDec rest with
      | none => none
      | some (v, n) => some (v * 128 + (b % 128), n + 1)

/-- Fuel-based worker for `decDigits`. -/
def decDigitsAux : Nat → Nat → List Nat
  | 0, n => [n % 10]
  | fuel + 1, n =>
    if n < 10 then [n] else decDigitsAux fuel (n / 10) ++ [n % 10]

/-- Decimal digits of a number, most significant first (`decDigits 0 = [0]`). -/
def decDigits (n : Nat) : List Nat :=
  decDigitsAux n n

/-- ASCII decimal representation of a number, as Go's `strconv` formats
unsigned integers. -/
def asciiDec (n : Nat) : List Nat :=
  (decDigits n).map (· + 48)

/-- One ASCII decimal digit byte. -/
def isDigitByte (b : Nat) : Bool :=
  48 ≤ b && b ≤ 57

/-- Modelled from the spec: Go's `strconv.ParseUint(s, 10, 64)` on a
byte string: `none` for an empty string, a non-digit byte, or a value
outside 64 bits. -/
def parseUintDec (bs : List Nat) : Option Nat :=
  if bs.isEmpty then none
  else if bs.all isDigitByte then
    let v := bs.foldl (fun a b => a * 10 + (b - 48)) 0
    if v < 2 ^ 64 then some v else none
  else none

/-- One round of the bit-reflected CRC step: shift right, folding in the
reversed Castagnoli polynomial on a set low bit. -/
def crc32cRound (c : Nat) : Nat :=
  if c % 2 = 1 then (c / 2) ^^^ 0x82F63B78 else c / 2

/-- Eight rounds of `crc32cRound`, i.e. one input byte's worth. -/
def crc32cByte (c b : Nat) : Nat :=
  crc32cRound (crc32cRound (crc32cRound (crc32cRound
    (crc32cRound (crc32cRound (crc32cRound (crc32cRound (c ^^^ b % 256))))))))

/-- Modelled from the spec: CRC-32C (Castagnoli) over a byte sequence,
the checksum Go's `crc32.New(y.CastagnoliCrcTable)` computes: reflected
polynomial `0x82F63B78`, initial value and final xor `0xFFFFFFFF`. -/
def crc32c (data : List Nat) : Nat :=
  (data.foldl crc32cByte 0xFFFFFFFF) ^^^ 0xFFFFFFFF

/-- XOR a byte list with a keystream, byte `i` of the data against
keystream position `i + start`. -/
def keystreamXor (ksb : Nat → Nat) : Nat → List Nat → List Nat
  | _, [] => []
  | i, b :: rest => (b ^^^ ksb i % 256) :: keystreamXor ksb (i + 1) rest

/-- Go `copy(data[pos:], src)`: overwrite bytes of `data` from position
`pos` with `src`, never growing `data` (excess source bytes are dropped,
as Go's `copy` stops at the destination's length). -/
def copyAt (data : List Nat) (pos : Nat) (src : List Nat) : List Nat :=
  data.take pos ++ src.take (data.length - pos) ++ data.drop (pos + src.length)

/-- Modelled from the spec: the `z.ZeroOut(data, s, e)` collaborator,
zero-filling bytes `[s, e)` of a buffer. -/
def zeroOut (data : List Nat) (s e : Nat) : List Nat :=
  data.take s ++ List.replicate (min e data.length - s) 0 ++ data.drop e

/-- Maximum of a list of naturals (0 on the empty list). -/
def listMax (l : List Nat) : Nat :=
  l.foldr Nat.max 0

/-! ## Data model -/

/-- Go errors as observed by this layer: a bare error code, an
`errFile(err, path, msg)` wrapper, or an `errors.Wrapf(err, msg)`
wrapper. -/
inductive GoErr where
  | raw : Nat → GoErr
  | file : Nat → String → String → GoErr
  | wrap : GoErr → String → GoErr
deriving DecidableEq

/-- Modelled from the spec: the key-registry's data-key record
(`pb.DataKey`): an id and the AES key bytes. -/
structure DataKey where
  KeyId : Nat
  Data : List Nat
deriving DecidableEq

/-- The record header (fields of `header` in the repository; its
varint codec is outside `src/` and is modelled from the spec: key
length, value length, expires-at as varints, then the meta and
user-meta bytes). -/
structure header where
  klen : Nat
  vlen : Nat
  expiresAt : Nat
  meta : Nat
  userMeta : Nat
deriving DecidableEq

/-- Modelled from the spec: `header.Encode` — klen, vlen, expires-at as
varints followed by the single meta and user-meta bytes. -/
def header.Encode (h : header) : List Nat :=
  putUvarint h.klen ++ putUvarint h.vlen ++ putUvarint h.expiresAt ++
    [h.meta, h.userMeta]

/-- Modelled from the spec: `header.Decode` — parse the three varints
and the two trailing bytes, returning the header and its encoded
length; `none` on a truncated buffer. -/
def header.Decode (buf : List Nat) : Option (header × Nat) :=
  match uvarintDec buf with
  | none => none
  | some (k, n1) =>
    match uvarintDec (buf.drop n1) with
    | none => none
    | some (v, n2) =>
      match uvarintDec (buf.drop (n1 + n2)) with
      | none => none
      | some (x, n3) =>
        match buf.drop (n1 + n2 + n3) with
        | m :: um :: _ => some (⟨k, v, x, m, um⟩, n1 + n2 + n3 + 2)
        | _ => none

/-- The `Entry` record of the repository: key, value, meta flags,
user-meta, expiry, plus the post-decode byte offset and header
length. -/
structure Entry where
  Key : List Nat
  Value : List Nat
  meta : Nat
  UserMeta : Nat
  ExpiresAt : Nat
  offset : Nat
  hlen : Nat
deriving DecidableEq

/-- Modelled from the spec: the TXN meta flag bit (a distinct bit;
the spec fixes no numeric value). -/
def bitTxn : Nat := 64

/-- Modelled from the spec: the FIN_TXN meta flag bit. -/
def bitFinTxn : Nat := 128

/-- Modelled from the spec: `Entry.isZero` — the all-zero record that
marks the zero-filled unused tail of a log file. -/
def Entry.isZero (e : Entry) : Bool :=
  e.meta == 0 && e.UserMeta == 0 && e.ExpiresAt == 0 &&
    e.Key.isEmpty && e.Value.isEmpty

/-- The `valuePointer` handed to iteration callbacks. -/
structure valuePointer where
  Fid : Nat
  Len : Nat
  Offset : Nat
deriving DecidableEq

/-- The `y.ValueStruct` stored in the sorted map. -/
structure ValueStruct where
  Value : List Nat
  Meta : Nat
  UserMeta : Nat
  ExpiresAt : Nat
deriving DecidableEq

/-- Result of one callback (`logEntry`) invocation: nil, the `errStop`
sentinel, or another error code. -/
inductive FnResult where
  | ok : FnResult
  | stop : FnResult
  | err : Nat → FnResult
deriving DecidableEq

/-- The `logFile` state: the mapped bytes, path, file id, optional data
key, base IV and append cursor (`size`, the lock and the loading mode
play no role in the modelled behaviour). -/
structure logFile where
  Data : List Nat
  path : String
  fid : Nat
  dataKey : Option DataKey
  baseIV : List Nat
  writeAt : Nat
deriving DecidableEq

/-- `logFile.encryptionEnabled`. -/
def logFile.encryptionEnabled (lf : logFile) : Bool :=
  lf.dataKey.isSome

/-- `logFile.keyID`: the data key's id, 0 when encryption is off. -/
def logFile.keyID (lf : logFile) : Nat :=
  match lf.dataKey with
  | none => 0
  | some dk => dk.KeyId

/-- `vlogHeaderSize`: 8 bytes of key id plus 12 bytes of base IV. -/
def vlogHeaderSize : Nat := 20

/-- `logFile.generateIV`: the 12-byte base IV followed by the record
offset as 4 big-endian bytes. -/
def logFile.generateIV (lf : logFile) (offset : Nat) : List Nat :=
  lf.baseIV.take 12 ++ be32 offset

/-! ## Record codec (`logFile.encodeEntry` / `logFile.decodeEntry`) -/

/-- An error code standing for `aes.KeySizeError` (raised by Go's
`aes.NewCipher` inside `y.XORBlockStream` on an invalid key length). -/
def errAesKeySize : Nat := 1

/-- An error code standing for `errTruncate`. -/
def errTruncateCode : Nat := 2

/-- AES accepts 16-, 24- or 32-byte keys. -/
def aesKeySizeOk (key : List Nat) : Bool :=
  key.length == 16 || key.length == 24 || key.length == 32

/-- Modelled from the spec: the cipher collaborator
(`y.XORBlockStream` / `y.XORBlockAllocate`) — AES-CTR over an
arbitrary-length buffer.  The keystream itself is abstracted as an
arbitrary function `ks` of the key and the 128-bit IV (CTR mode XORs
the data with a stream fully determined by key and IV, so encryption
and decryption are the same operation); an invalid key length is the
`aes.NewCipher` error. -/
def xorBlockStream (ks : List Nat → List Nat → Nat → Nat)
    (data key iv : List Nat) : Except Nat (List Nat) :=
  if aesKeySizeOk key then .ok (keystreamXor (fun i => ks key iv i) 0 data)
  else .error errAesKeySize

/-- The header `encodeEntry` builds from an entry: key and value
lengths cast to `uint32`, expiry as `uint64`, meta and user-meta
bytes. -/
def entryHeader (e : Entry) : header :=
  ⟨e.Key.length % 2 ^ 32, e.Value.length % 2 ^ 32, e.ExpiresAt % 2 ^ 64,
    e.meta % 256, e.UserMeta % 256⟩

/-- `logFile.encodeEntry`: header, then key and value (passed through
the stream cipher when encryption is enabled, with the IV derived from
`offset`), then the big-endian CRC-32C of the bytes written so far.
Returns the buffer contents and the encoded length. -/
def logFile.encodeEntry (ks : List Nat → List Nat → Nat → Nat)
    (lf : logFile) (e : Entry) (offset : Nat) :
    Except Nat (List Nat × Nat) :=
  let headerEnc := (entryHeader e).Encode
  match lf.dataKey with
  | some dk =>
    match xorBlockStream ks (e.Key ++ e.Value) dk.Data (lf.generateIV offset) with
    | .error c => .error c
    | .ok ct =>
      let body := headerEnc ++ ct
      .ok (body ++ be32 (crc32c body),
           headerEnc.length + e.Key.length + e.Value.length + 4)
  | none =>
    let body := headerEnc ++ e.Key ++ e.Value
    .ok (body ++ be32 (crc32c body),
         headerEnc.length + e.Key.length + e.Value.length + 4)

/-- `logFile.decryptKV`. -/
def logFile.decryptKV (ks : List Nat → List Nat → Nat → Nat)
    (lf : logFile) (buf : List Nat) (offset : Nat) : Except Nat (List Nat) :=
  match lf.dataKey with
  | some dk => xorBlockStream ks buf dk.Data (lf.generateIV offset)
  | none => .ok buf

/-- `logFile.decodeEntry`: parse the header, decrypt the key/value slab
when encryption is enabled (same IV derivation), and slice out key and
value.  A header parse failure is the TRUNCATE error (the header codec
is outside `src/` and modelled from the spec). -/
def logFile.decodeEntry (ks : List Nat → List Nat → Nat → Nat)
    (lf : logFile) (buf : List Nat) (offset : Nat) : Except Nat Entry :=
  match header.Decode buf with
  | none => .error errTruncateCode
  | some (h, hlen) =>
    let kv := buf.drop hlen
    match lf.dataKey with
    | some dk =>
      match xorBlockStream ks kv dk.Data (lf.generateIV offset) with
      | .error c => .error c
      | .ok kv₂ =>
        .ok ⟨kv₂.take h.klen, (kv₂.drop h.klen).take h.vlen,
             h.meta, h.userMeta, h.expiresAt, offset, hlen⟩
    | none =>
      .ok ⟨kv.take h.klen, (kv.drop h.klen).take h.vlen,
           h.meta, h.userMeta, h.expiresAt, offset, hlen⟩

/-- `logFile.writeEntry`: encode into the scratch buffer at the current
append cursor, copy the encoded bytes into the mapped region at that
cursor, and advance the cursor by the encoded length. -/
def logFile.writeEntry (ks : List Nat → List Nat → Nat → Nat)
    (lf : logFile) (e : Entry) : Except Nat logFile :=
  match lf.encodeEntry ks e lf.writeAt with
  | .error c => .error c
  | .ok (bytes, plen) =>
    .ok { lf with Data := copyAt lf.Data lf.writeAt bytes,
                  writeAt := lf.writeAt + plen }

/-- `logFile.bootstrap`: store the data key obtained from the registry
(an external collaborator, so the key record and the 12 random IV bytes
are inputs here), and write key id plus base IV into the first 20 bytes
of the file. -/
def logFile.bootstrap (lf : logFile) (dk : Option DataKey) (iv : List Nat) :
    logFile :=
  let lf₁ := { lf with dataKey := dk }
  let buf := be64 lf₁.keyID ++ iv
  { lf₁ with baseIV := iv, Data := copyAt lf₁.Data 0 buf }

/-- `logFile.reset`: zero the record region `[20, writeAt)` and rewind
the append cursor to just past the header. -/
def logFile.reset (lf : logFile) : logFile :=
  { lf with Data := zeroOut lf.Data vlogHeaderSize lf.writeAt,
            writeAt := vlogHeaderSize }

/-- `logFile.doneWriting`: msync, munmap, truncate the file to `offset`
and remap — the net effect on the mapped bytes is truncation to
`offset` (sync, lock and remap have no further observable effect in
this embedding). -/
def logFile.doneWriting (lf : logFile) (offset : Nat) : logFile :=
  { lf with Data := lf.Data.take offset }

/-- Modelled from the spec: `z.MmapFile.Truncate` (the mmap-file
collaborator) — truncate the backing file to `n` bytes and remap. -/
def logFile.TruncateFile (lf : logFile) (n : Nat) : logFile :=
  { lf with Data := lf.Data.take n }

/-! ## Replay iterator (`logFile.iterate`) -/

/-- One item produced by the record reader.  The reader (`safeRead`) is
outside `src/` and modelled from the spec: it yields decoded records in
file order; EOF, a zero header, an unexpected EOF, a truncated record
and a corrupt record all end the stream (spec section 7 folds
CRC/corruption into end-of-valid-data), while any other decode error is
fatal and surfaces as `bad`. -/
inductive ReadItem where
  | rcd : Entry → ReadItem
  | bad : Nat → ReadItem
deriving DecidableEq

/-- The encoded length of a record as `iterate` computes it:
`int(e.hlen) + len(e.Key) + len(e.Value) + crc32.Size`. -/
def recLen (e : Entry) : Nat :=
  e.hlen + e.Key.length + e.Value.length + 4

/-- The inner flush loop of `iterate`'s FIN_TXN case: deliver the
staged entries in order; `errStop` breaks the flush (no error), any
other callback error aborts.  Returns the performed invocations and the
aborting error code, if any. -/
def flushGroup (fn : Entry → valuePointer → FnResult) :
    List (Entry × valuePointer) →
    List (Entry × valuePointer) × Option Nat
  | [] => ([], none)
  | (e, vp) :: rest =>
    match fn e vp with
    | .ok =>
      let out := flushGroup fn rest
      ((e, vp) :: out.1, out.2)
    | .stop => ([(e, vp)], none)
    | .err c => ([(e, vp)], some c)

/-- The main loop of `logFile.iterate`, processing the reader's stream
with the running record offset, the pending commit timestamp
(`lastCommit`), the watermark (`validEndOffset`) and the staged
transaction entries.  Returns the callback invocations in order and
either the final watermark or the propagated error. -/
def iterLoop (fn : Entry → valuePointer → FnResult) (fid : Nat) (path : String) :
    List ReadItem → Nat → Nat → Nat → List (Entry × valuePointer) →
    List (Entry × valuePointer) × Except GoErr Nat
  | [], _, _, veo, _ => ([], .ok veo)
  | .bad c :: _, _, _, _, _ => ([], .error (.raw c))
  | .rcd e :: rest, off, lc, veo, staged =>
    if e.isZero then ([], .ok veo)
    else
      let len := recLen e
      let e' := { e with offset := off }
      let vp : valuePointer := ⟨fid, len, off⟩
      let off' := off + len
      if e.meta &&& bitTxn ≠ 0 then
        let ts := parseTs e.Key
        let lc' := if lc = 0 then ts else lc
        if lc' ≠ ts then ([], .ok veo)
        else iterLoop fn fid path rest off' lc' veo (staged ++ [(e', vp)])
      else if e.meta &&& bitFinTxn ≠ 0 then
        match parseUintDec e.Value with
        | none => ([], .ok veo)
        | some ts =>
          if lc ≠ ts then ([], .ok veo)
          else
            match flushGroup fn staged with
            | (called, some c) =>
              (called, .error (.file c path "Iteration function"))
            | (called, none) =>
              let out := iterLoop fn fid path rest off' 0 off' []
              (called ++ out.1, out.2)
      else
        if lc ≠ 0 then ([], .ok veo)
        else
          match fn e' vp with
          | .err c => ([(e', vp)], .error (.file c path "Iteration function"))
          | .ok =>
            let out := iterLoop fn fid path rest off' 0 off' []
            ((e', vp) :: out.1, out.2)
          | .stop =>
            let out := iterLoop fn fid path rest off' 0 off' []
            ((e', vp) :: out.1, out.2)

/-- `logFile.iterate`: start at `offset` (0 means just past the 20-byte
file header), run the loop with an empty staging area and the watermark
at the start offset.  The first component lists the callback
invocations, the second is the returned watermark or error. -/
def logFile.iterate (lf : logFile) (_readOnly : Bool) (offset : Nat)
    (fn : Entry → valuePointer → FnResult) (stream : List ReadItem) :
    List (Entry × valuePointer) × Except GoErr Nat :=
  let off := if offset = 0 then vlogHeaderSize else offset
  iterLoop fn lf.fid lf.path stream off 0 off []

/-! ## Memtable (`memTable.Put`, replay, reference count) -/

/-- The `memTable` state: the sorted map (modelled from the spec as the
sequence of insertions handed to the external skiplist collaborator),
its WAL, the reference count and the maximum replayed transaction
timestamp. -/
structure memTable where
  sl : List (List Nat × ValueStruct)
  wal : logFile
  ref : Int
  nextTxnTs : Nat
deriving DecidableEq

/-- Modelled from the spec: the sorted map collaborator's
`Put(key, value_struct)`; the map copies its input, so recording the
insertion sequence is a faithful view of what the memtable hands it. -/
def sklPut (sl : List (List Nat × ValueStruct)) (key : List Nat)
    (v : ValueStruct) : List (List Nat × ValueStruct) :=
  sl ++ [(key, v)]

/-- `memTable.Put`: build the entry, append it to the WAL, and only on
success insert into the sorted map.  The returned state is the
memtable after the call; the `Option GoErr` is Put's return value. -/
def memTable.Put (ks : List Nat → List Nat → Nat → Nat) (mt : memTable)
    (key : List Nat) (value : ValueStruct) : memTable × Option GoErr :=
  let entry : Entry :=
    ⟨key, value.Value, value.Meta, value.UserMeta, value.ExpiresAt, 0, 0⟩
  match mt.wal.writeEntry ks entry with
  | .error c => (mt, some (.wrap (.raw c) "cannot write entry to WAL file"))
  | .ok wal₂ => ({ mt with wal := wal₂, sl := sklPut mt.sl key value }, none)

/-- One step of `memTable.replayFunction`: raise `nextTxnTs` to the
entry key's timestamp when larger, then insert the entry into the
sorted map verbatim. -/
def memTable.replayStep (mt : memTable) (evp : Entry × valuePointer) : memTable :=
  let e := evp.1
  let ts := parseTs e.Key
  let mt₁ := if ts > mt.nextTxnTs then { mt with nextTxnTs := ts } else mt
  { mt₁ with sl := sklPut mt₁.sl e.Key ⟨e.Value, e.meta, e.UserMeta, e.ExpiresAt⟩ }

/-- The replay callback always returns nil. -/
def fnOk : Entry → valuePointer → FnResult := fun _ _ => .ok

/-- `memTable.UpdateSkipList`: iterate the WAL from offset 0 with the
replay callback (its per-entry state change is `replayStep`, applied in
invocation order), then truncate the log to the returned valid end
offset; an iteration error is wrapped and returned without
truncating. -/
def memTable.UpdateSkipList (mt : memTable) (stream : List ReadItem) :
    memTable × Option GoErr :=
  let out := mt.wal.iterate true 0 fnOk stream
  match out.2 with
  | .error e => (mt, some (.wrap e "while iterating wal"))
  | .ok endOff =>
    let mt₁ := out.1.foldl memTable.replayStep mt
    ({ mt₁ with wal := mt₁.wal.TruncateFile endOff }, none)

/-- A reference-count operation: `memTable.IncrRef` or
`memTable.DecrRef`. -/
inductive RefOp where
  | incr : RefOp
  | decr : RefOp
deriving DecidableEq

/-- Reference-count state plus ghost counters recording how many times
the skiplist arena was reclaimed and the WAL file deleted. -/
structure RefState where
  ref : Int
  reclaims : Nat
  deletes : Nat
deriving DecidableEq

/-- One `IncrRef`/`DecrRef` step: `DecrRef` releases (reclaims the
arena and deletes the WAL) exactly when the decremented count is not
positive. -/
def refStep (s : RefState) : RefOp → RefState
  | .incr => { s with ref := s.ref + 1 }
  | .decr =>
    let newRef := s.ref - 1
    if newRef > 0 then { s with ref := newRef }
    else { ref := newRef, reclaims := s.reclaims + 1, deletes := s.deletes + 1 }

/-- Run a sequence of reference-count operations. -/
def runRefOps (s : RefState) (ops : List RefOp) : RefState :=
  ops.foldl refStep s

/-- Number of `incr` operations in a list. -/
def incrCount (ops : List RefOp) : Nat :=
  (ops.filter (· == RefOp.incr)).length

/-- Number of `decr` operations in a list. -/
def decrCount (ops : List RefOp) : Nat :=
  (ops.filter (· == RefOp.decr)).length

/-! ## Directory recovery (`DB.openMemTables`, `DB.newMemTable`) -/

/-- The `DB` state relevant to memtable recovery: the ids of the
recovered immutable memtables and the next memtable file id. -/
structure DB where
  imm : List Nat
  nextMemFid : Nat
deriving DecidableEq

/-- `memFileExt` (file names are modelled as character lists so the
suffix test and the id parse stay structurally computable). -/
def memFileExt : List Char := ['.', 'm', 'e', 'm']

/-- Go `strings.HasSuffix(name, ".mem")`. -/
def hasMemSuffix (name : List Char) : Bool :=
  decide (memFileExt.length ≤ name.length) &&
    name.drop (name.length - memFileExt.length) == memFileExt

/-- Decimal value of a digit character list, `none` on an empty or
non-digit input. -/
def parseDecChars (cs : List Char) : Option Nat :=
  if cs.isEmpty then none
  else if cs.all (fun c => 48 ≤ c.toNat && c.toNat ≤ 57) then
    some (cs.foldl (fun a c => a * 10 + (c.toNat - 48)) 0)
  else none

/-- Parse a memtable log file name into its id (Go
`strconv.ParseInt(name[:len-4], 10, 64)` for the non-negative ids the
`%05d.mem` grammar produces). -/
def parseMemFid (name : List Char) : Option Nat :=
  parseDecChars (name.take (name.length - memFileExt.length))

/-- The fid-collection loop of `DB.openMemTables`: skip names without
the `.mem` suffix, fail on an unparsable id, keep directory order. -/
def collectFids : List (List Char) → Except GoErr (List Nat)
  | [] => .ok []
  | f :: rest =>
    if hasMemSuffix f then
      match parseMemFid f with
      | none => .error (.file 0 (String.mk f) "Unable to parse log id.")
      | some fid =>
        match collectFids rest with
        | .error e => .error e
        | .ok fids => .ok (fid :: fids)
    else collectFids rest

/-- `DB.openMemTables` as far as fid accounting goes: collect ids, sort
ascending, recover one (immutable) memtable per id in that order, set
`nextMemFid` to the last sorted id when any exist, and increment it.
Opening and replaying the individual files is out of scope of the fid
bookkeeping modelled here (the claim concerns the id counter after a
completed recovery). -/
def DB.openMemTables (db : DB) (files : List (List Char)) : Except GoErr DB :=
  match collectFids files with
  | .error e => .error e
  | .ok fids =>
    let sorted := List.insertionSort (· ≤ ·) fids
    let nf := match sorted.getLast? with
      | none => db.nextMemFid
      | some m => m
    .ok { imm := db.imm ++ sorted, nextMemFid := nf + 1 }

/-- `DB.newMemTable`: open a memtable at the current `nextMemFid` and
increment the counter; returns the fid the new memtable received. -/
def DB.newMemTable (db : DB) : Nat × DB :=
  (db.nextMemFid, { db with nextMemFid := db.nextMemFid + 1 })

/-! ## Transaction-group grammar for replay (claims C1, C2, C8) -/

/-- One segment of the committed prefix of a log: either a single
non-transactional record outside any group, or a complete transaction
group — a run of TXN records sharing one commit timestamp terminated by
its FIN_TXN sentinel. -/
inductive Segment where
  | plain : Entry → Segment
  | txgroup : Nat → List Entry → Entry → Segment

/-- A non-transactional record: neither meta bit set and not the
zero terminator. -/
def isPlainRec (e : Entry) : Bool :=
  (e.meta &&& bitTxn == 0) && (e.meta &&& bitFinTxn == 0) && !e.isZero

/-- A TXN record whose key carries commit timestamp `t`. -/
def isTxnRec (t : Nat) (e : Entry) : Bool :=
  (e.meta &&& bitTxn != 0) && (parseTs e.Key == t)

/-- The FIN_TXN sentinel for commit timestamp `t`: the FIN bit is set
(and the TXN bit is not, as `iterate` tests TXN first) and the value is
the ASCII decimal of `t`. -/
def isFinRec (t : Nat) (f : Entry) : Bool :=
  (f.meta &&& bitTxn == 0) && (f.meta &&& bitFinTxn != 0) &&
    (f.Value == asciiDec t)

/-- Well-formedness of a segment (`t < 2 ^ 64` is the uint64 range of
Go commit timestamps). -/
def WFSeg : Segment → Bool
  | .plain e => isPlainRec e
  | .txgroup t es f =>
    (!es.isEmpty) && decide (t < 2 ^ 64) && es.all (isTxnRec t) && isFinRec t f

/-- The records of a segment in file order. -/
def segEntries : Segment → List Entry
  | .plain e => [e]
  | .txgroup _ es f => es ++ [f]

/-- Total encoded length of a record run. -/
def runLen : List Entry → Nat
  | [] => 0
  | e :: rest => recLen e + runLen rest

/-- Byte length of a segment. -/
def segLen (s : Segment) : Nat :=
  runLen (segEntries s)

/-- The callback invocations a staged TXN run produces, with each
record's offset filled in from its position. -/
def stageRun (fid : Nat) : Nat → List Entry → List (Entry × valuePointer)
  | _, [] => []
  | base, e :: rest =>
    ({ e with offset := base }, ⟨fid, recLen e, base⟩) ::
      stageRun fid (base + recLen e) rest

/-- The callback invocations one segment produces when replay starts it
at offset `base`: the plain record itself, or the group's TXN records
(the FIN sentinel is never delivered). -/
def segCalls (fid base : Nat) : Segment → List (Entry × valuePointer)
  | .plain e => [({ e with offset := base }, ⟨fid, recLen e, base⟩)]
  | .txgroup _ es _ => stageRun fid base es

/-- The records of a segment list in file order. -/
def segsEntries : List Segment → List Entry
  | [] => []
  | s :: rest => segEntries s ++ segsEntries rest

/-- The callback invocations of a segment list starting at `base`. -/
def segsCalls (fid : Nat) : Nat → List Segment → List (Entry × valuePointer)
  | _, [] => []
  | base, s :: rest => segCalls fid base s ++ segsCalls fid (base + segLen s) rest

/-- Total byte length of a segment list. -/
def segsLen : List Segment → Nat
  | [] => 0
  | s :: rest => segLen s + segsLen rest

/-- Lift a record list to the reader's stream. -/
def recStream (es : List Entry) : List ReadItem :=
  es.map ReadItem.rcd

/-! ## Concrete inputs used by the witness theorems -/

/-- A concrete keystream function standing in for AES-CTR in witness
computations. -/
def ksW : List Nat → List Nat → Nat → Nat := fun _ _ i => i + 9

/-- A concrete 16-byte data key. -/
def dkW : DataKey := ⟨7, List.replicate 16 2⟩

/-- A concrete data key with an invalid (3-byte) AES key, to exercise
the cipher failure path. -/
def dkBad : DataKey := ⟨8, [1, 2, 3]⟩

/-- A plaintext log file over a 64-byte mapped region. -/
def lfPlain : logFile := ⟨List.replicate 64 0, "00001.mem", 1, none,
  List.replicate 12 5, 20⟩

/-- An encrypted log file over a 64-byte mapped region. -/
def lfEnc : logFile := ⟨List.replicate 64 0, "00002.mem", 2, some dkW,
  List.replicate 12 5, 20⟩

/-- A log file whose data key has an invalid length. -/
def lfBad : logFile := ⟨List.replicate 64 0, "00003.mem", 3, some dkBad,
  List.replicate 12 5, 20⟩

/-- A small concrete entry. -/
def eW : Entry := ⟨[10, 11], [20], 3, 7, 300, 0, 0⟩

/-- The bytes `encodeEntry` produces for `eW` on `lfEnc` at offset 20. -/
def outC4 : List Nat := [2, 1, 172, 2, 3, 7, 3, 1, 31, 1, 206, 113, 156]

/-- The bytes `encodeEntry` produces for `eW` on `lfPlain` at offset 20. -/
def outC10 : List Nat := [2, 1, 172, 2, 3, 7, 10, 11, 20, 191, 6, 133, 74]

/-- `lfPlain` after writing `eW`. -/
def lfW10 : logFile := ⟨List.replicate 20 0 ++ outC10 ++ List.replicate 31 0,
  "00001.mem", 1, none, List.replicate 12 5, 33⟩

/-- A plain (non-transactional) record; `recLen` 15. -/
def pRec : Entry := ⟨[1, 2, 3, 4, 5, 6, 7, 8, 9], [], 0, 1, 0, 0, 2⟩

/-- Another plain record; `recLen` 16. -/
def qRec : Entry := ⟨[9, 8, 7, 6, 5, 4, 3, 2, 1], [33], 0, 1, 0, 0, 2⟩

/-- A TXN record with commit timestamp 9; `recLen` 16. -/
def xRec : Entry := ⟨[120] ++ be64 9, [88], 64, 0, 0, 0, 2⟩

/-- A second TXN record with commit timestamp 9; `recLen` 16. -/
def yRec : Entry := ⟨[121] ++ be64 9, [89], 64, 0, 0, 0, 2⟩

/-- The FIN_TXN sentinel for timestamp 9 (value is ASCII "9"); `recLen` 8. -/
def finRec : Entry := ⟨[0], [57], 128, 0, 0, 0, 2⟩

/-- A torn TXN record with commit timestamp 5; `recLen` 16. -/
def tornRec : Entry := ⟨[122] ++ be64 5, [90], 64, 0, 0, 0, 2⟩

/-- A callback that always requests the stop sentinel. -/
def fnStop : Entry → valuePointer → FnResult := fun _ _ => .stop

/-- A callback that always fails with error code 3. -/
def fnErr3 : Entry → valuePointer → FnResult := fun _ _ => .err 3

/-- A concrete memtable over `lfPlain`. -/
def mtW : memTable := ⟨[], lfPlain, 1, 0⟩

/-- A concrete memtable over `lfBad` (its WAL appends fail). -/
def mtBad : memTable := ⟨[], lfBad, 1, 0⟩

/-- A concrete value. -/
def vsW : ValueStruct := ⟨[42, 43], 0, 2, 0⟩

/-! ## Unfolding equations for the fuel-based encoders -/

theorem putUvarintAux_fuel_irrel : ∀ (f₁ : Nat), ∀ (n f₂ : Nat),
    n ≤ f₁ → n ≤ f₂ → putUvarintAux f₁ n = putUvarintAux f₂ n := by
  intro f₁
  induction f₁ with
  | zero =>
    intro n f₂ h₁ _
    interval_cases n
    cases f₂ with
    | zero => rfl
    | succ g => simp [putUvarintAux]
  | succ f ih =>
    intro n f₂ h₁ h₂
    cases f₂ with
    | zero =>
      interval_cases n
      simp [putUvarintAux]
    | succ g =>
      simp only [putUvarintAux]
      by_cases hn : n < 128
      · rw [if_pos hn, if_pos hn]
      · rw [if_neg hn, if_neg hn]
        have hdiv : n / 128 < n := Nat.div_lt_self (by omega) (by omega)
        rw [ih (n / 128) f (by omega) (by omega),
          ih (n / 128) g (by omega) (by omega)]

theorem putUvarint_eq (n : Nat) :
    putUvarint n = if n < 128 then [n]
      else (n % 128 + 128) :: putUvarint (n / 128) := by
  unfold putUvarint
  cases hn : n with
  | zero => simp [putUvarintAux]
  | succ k =>
    simp only [putUvarintAux]
    by_cases hlt : k + 1 < 128
    · rw [if_pos hlt, if_pos hlt]
    · rw [if_neg hlt, if_neg hlt]
      have hdiv : (k + 1) / 128 < k + 1 := Nat.div_lt_self (by omega) (by omega)
      rw [putUvarintAux_fuel_irrel k ((k + 1) / 128) ((k + 1) / 128)
        (by omega) (by omega)]

theorem decDigitsAux_fuel_irrel : ∀ (f₁ : Nat), ∀ (n f₂ : Nat),
    n ≤ f₁ → n ≤ f₂ → decDigitsAux f₁ n = decDigitsAux f₂ n := by
  intro f₁
  induction f₁ with
  | zero =>
    intro n f₂ h₁ _
    interval_cases n
    cases f₂ with
    | zero => rfl
    | succ g => simp [decDigitsAux]
  | succ f ih =>
    intro n f₂ h₁ h₂
    cases f₂ with
    | zero =>
      interval_cases n
      simp [decDigitsAux]
    | succ g =>
      simp only [decDigitsAux]
      by_cases hn : n < 10
      · rw [if_pos hn, if_pos hn]
      · rw [if_neg hn, if_neg hn]
        have hdiv : n / 10 < n := Nat.div_lt_self (by omega) (by omega)
        rw [ih (n / 10) f (by omega) (by omega),
          ih (n / 10) g (by omega) (by omega)]

theorem decDigits_eq (n : Nat) :
    decDigits n = if n < 10 then [n]
      else decDigits (n / 10) ++ [n % 10] := by
  unfold decDigits
  cases hn : n with
  | zero => simp [decDigitsAux]
  | succ k =>
    simp only [decDigitsAux]
    by_cases hlt : k + 1 < 10
    · rw [if_pos hlt, if_pos hlt]
    · rw [if_neg hlt, if_neg hlt]
      have hdiv : (k + 1) / 10 < k + 1 := Nat.div_lt_self (by omega) (by omega)
      rw [decDigitsAux_fuel_irrel k ((k + 1) / 10) ((k + 1) / 10)
        (by omega) (by omega)]

/-! ## Reference-count lemmas (claim C7) -/

theorem runRefOps_cons (s : RefState) (op : RefOp) (rest : List RefOp) :
    runRefOps s (op :: rest) = runRefOps (refStep s op) rest := by
  simp [runRefOps]

theorem refStep_incr (s : RefState) :
    refStep s .incr = { s with ref := s.ref + 1 } := rfl

theorem refStep_decr_pos (s : RefState) (h : 0 < s.ref - 1) :
    refStep s .decr = { s with ref := s.ref - 1 } := by
  simp only [refStep]
  rw [if_pos h]

theorem refStep_decr_rel (s : RefState) (h : ¬ 0 < s.ref - 1) :
    refStep s .decr =
      { ref := s.ref - 1, reclaims := s.reclaims + 1, deletes := s.deletes + 1 } := by
  simp only [refStep]
  rw [if_neg h]

theorem refStep_ref (s : RefState) (op : RefOp) :
    (refStep s op).ref = s.ref + (if op = .incr then 1 else -1) := by
  cases op with
  | incr => simp [refStep]
  | decr =>
    simp only [refStep]
    split <;> simp <;> omega

theorem incrCount_cons (op : RefOp) (rest : List RefOp) :
    incrCount (op :: rest) =
      (if op = .incr then 1 else 0) + incrCount rest := by
  cases op <;> simp [incrCount, List.filter_cons] <;> omega

theorem decrCount_cons (op : RefOp) (rest : List RefOp) :
    decrCount (op :: rest) =
      (if op = .decr then 1 else 0) + decrCount rest := by
  cases op <;> simp [decrCount, List.filter_cons] <;> omega

theorem runRefOps_ref (ops : List RefOp) : ∀ s : RefState,
    (runRefOps s ops).ref =
      s.ref + (incrCount ops : Int) - (decrCount ops : Int) := by
  induction ops with
  | nil => intro s; simp [runRefOps, incrCount, decrCount]
  | cons op rest ih =>
    intro s
    rw [runRefOps_cons, ih, refStep_ref, incrCount_cons, decrCount_cons]
    cases op <;> simp <;> omega

theorem runRefOps_no_release (ops : List RefOp) : ∀ s : RefState,
    (∀ k, k ≤ ops.length → (runRefOps s (ops.take k)).ref > 0) →
    (runRefOps s ops).reclaims = s.reclaims ∧
      (runRefOps s ops).deletes = s.deletes := by
  induction ops with
  | nil => intro s _; simp [runRefOps]
  | cons op rest ih =>
    intro s H
    rw [runRefOps_cons]
    have hstep : (refStep s op).reclaims = s.reclaims ∧
        (refStep s op).deletes = s.deletes := by
      cases op with
      | incr => simp [refStep_incr]
      | decr =>
        have h1 := H 1 (by simp)
        simp only [List.take_succ_cons, List.take_zero, runRefOps_cons] at h1
        simp only [runRefOps, List.foldl] at h1
        have hpos : 0 < s.ref - 1 := by
          by_contra hc
          rw [refStep_decr_rel s hc] at h1
          simp at h1
          omega
        rw [refStep_decr_pos s hpos]
        exact ⟨rfl, rfl⟩
    have Hrest : ∀ k, k ≤ rest.length →
        (runRefOps (refStep s op) (rest.take k)).ref > 0 := by
      intro k hk
      have := H (k + 1) (by simpa using Nat.succ_le_succ hk)
      rwa [List.take_succ_cons, runRefOps_cons] at this
    have := ih (refStep s op) Hrest
    omega

theorem runRefOps_append (s : RefState) (l₁ l₂ : List RefOp) :
    runRefOps s (l₁ ++ l₂) = runRefOps (runRefOps s l₁) l₂ := by
  simp [runRefOps]

/-- Claim C7 (counterexample): with the code's `DecrRef`, the
interleaving DecrRef, IncrRef, DecrRef — one IncrRef and two DecrRefs,
as the claim allows for n = 1 — reclaims the arena and deletes the WAL
twice, not exactly once: the count resurrects after the first zero. -/
theorem DecrRef_double_release_cex :
    incrCount [RefOp.decr, RefOp.incr, RefOp.decr] = 1 ∧
    decrCount [RefOp.decr, RefOp.incr, RefOp.decr] = 1 + 1 ∧
    (runRefOps ⟨1, 0, 0⟩ [RefOp.decr, RefOp.incr, RefOp.decr]).reclaims = 2 ∧
    (runRefOps ⟨1, 0, 0⟩ [RefOp.decr, RefOp.incr, RefOp.decr]).deletes = 2 ∧
    (2 : Nat) ≠ 1 := by
  decide

/-- Claim C7 (amended): starting from reference count 1, after an
interleaving of n IncrRef and n+1 DecrRef calls in which the count
stays positive until the final call (no use after it reaches zero —
the no-resurrection condition the spec itself imposes), the arena is
reclaimed and the WAL deleted exactly once, namely by the final DecrRef
(no release has happened before the last call); and any DecrRef that
leaves the count positive releases nothing. -/
theorem DecrRef_releases_once (n : Nat) (ops : List RefOp)
    (hI : incrCount ops = n) (hD : decrCount ops = n + 1)
    (hpos : ∀ k, k < ops.length → (runRefOps ⟨1, 0, 0⟩ (ops.take k)).ref > 0) :
    ((runRefOps ⟨1, 0, 0⟩ ops).ref = 0 ∧
     (runRefOps ⟨1, 0, 0⟩ ops).reclaims = 1 ∧
     (runRefOps ⟨1, 0, 0⟩ ops).deletes = 1 ∧
     (runRefOps ⟨1, 0, 0⟩ ops.dropLast).reclaims = 0 ∧
     (runRefOps ⟨1, 0, 0⟩ ops.dropLast).deletes = 0) ∧
    (∀ s : RefState, 0 < s.ref - 1 →
      refStep s .decr = { s with ref := s.ref - 1 }) := by
  refine ⟨?_, fun s h => refStep_decr_pos s h⟩
  have hne : ops ≠ [] := by
    intro h
    subst h
    simp [decrCount] at hD
  have href : (runRefOps ⟨1, 0, 0⟩ ops).ref = 0 := by
    rw [runRefOps_ref, hI, hD]
    push_cast
    omega
  have hlen : 1 ≤ ops.length := by
    cases ops with
    | nil => exact absurd rfl hne
    | cons a l => simp
  have htake : ops.dropLast = ops.take (ops.length - 1) := by
    rw [List.dropLast_eq_take]
  have hfrontTake : ∀ k, k ≤ ops.length - 1 →
      ops.dropLast.take k = ops.take k := by
    intro k hk
    rw [htake, List.take_take, Nat.min_eq_left hk]
  have hfrontPos : ∀ k, k ≤ ops.dropLast.length →
      (runRefOps ⟨1, 0, 0⟩ (ops.dropLast.take k)).ref > 0 := by
    intro k hk
    rw [List.length_dropLast] at hk
    rw [hfrontTake k hk]
    exact hpos k (by omega)
  have hfront := runRefOps_no_release ops.dropLast ⟨1, 0, 0⟩ hfrontPos
  have hfrontRef : (runRefOps ⟨1, 0, 0⟩ ops.dropLast).ref > 0 := by
    rw [htake]
    exact hpos (ops.length - 1) (by omega)
  have hsplit : ops = ops.dropLast ++ [ops.getLast hne] :=
    (List.dropLast_append_getLast hne).symm
  have hrun : runRefOps ⟨1, 0, 0⟩ ops =
      refStep (runRefOps ⟨1, 0, 0⟩ ops.dropLast) (ops.getLast hne) := by
    conv_lhs => rw [hsplit]
    rw [runRefOps_append]
    rfl
  set fs := runRefOps ⟨1, 0, 0⟩ ops.dropLast with hfs
  cases hlast : ops.getLast hne with
  | incr =>
    exfalso
    rw [hrun, hlast, refStep_incr] at href
    simp at href
    omega
  | decr =>
    have hrel : ¬ 0 < fs.ref - 1 := by
      intro hcon
      rw [hrun, hlast, refStep_decr_pos fs hcon] at href
      simp at href
      omega
    rw [hrun, hlast, refStep_decr_rel fs hrel]
    refine ⟨?_, ?_, ?_, hfront.1, hfront.2⟩
    · rw [hrun, hlast, refStep_decr_rel fs hrel] at href
      exact href
    · simp [hfront.1]
    · simp [hfront.2]

/-- Claim C7 (witness): the amended theorem applied to the concrete
interleaving IncrRef, DecrRef, DecrRef with n = 1. -/
theorem DecrRef_releases_once_witness :
    (runRefOps ⟨1, 0, 0⟩ [RefOp.incr, RefOp.decr, RefOp.decr]).ref = 0 ∧
    (runRefOps ⟨1, 0, 0⟩ [RefOp.incr, RefOp.decr, RefOp.decr]).reclaims = 1 ∧
    (runRefOps ⟨1, 0, 0⟩ [RefOp.incr, RefOp.decr, RefOp.decr]).deletes = 1 := by
  have h := DecrRef_releases_once 1 [RefOp.incr, RefOp.decr, RefOp.decr]
    (by decide) (by decide) (by decide)
  exact ⟨h.1.1, h.1.2.1, h.1.2.2.1⟩

/-! ## Directory-recovery lemmas (claim C6) -/

theorem le_listMax (l : List Nat) : ∀ x ∈ l, x ≤ listMax l := by
  induction l with
  | nil => simp
  | cons a t ih =>
    intro x hx
    rcases List.mem_cons.mp hx with hxa | hxt
    · subst hxa
      simp only [listMax, List.foldr]
      exact Nat.le_max_left x _
    · have := ih x hxt
      simp only [listMax, List.foldr] at this ⊢
      exact le_trans this (Nat.le_max_right a _)

theorem listMax_mem : ∀ (l : List Nat), l ≠ [] → listMax l ∈ l := by
  intro l
  induction l with
  | nil => intro h; exact absurd rfl h
  | cons a t ih =>
    intro _
    rcases Nat.le_total (listMax t) a with hle | hle
    · have hmax : listMax (a :: t) = a := by
        simp only [listMax, List.foldr] at hle ⊢
        exact Nat.max_eq_left hle
      rw [hmax]
      exact List.mem_cons_self a t
    · by_cases ht : t = []
      · subst ht
        simp [listMax]
      · have hmem := ih ht
        have hmax : listMax (a :: t) = listMax t := by
          simp only [listMax, List.foldr] at hle ⊢
          exact Nat.max_eq_right hle
        rw [hmax]
        exact List.mem_cons_of_mem a hmem

theorem sorted_le_getLast : ∀ (l : List Nat) (hl : l ≠ []),
    l.Sorted (· ≤ ·) → ∀ x ∈ l, x ≤ l.getLast hl := by
  intro l
  induction l with
  | nil => intro hl; exact absurd rfl hl
  | cons a t ih =>
    intro hl hs x hx
    rcases List.sorted_cons.mp hs with ⟨ha, hst⟩
    cases t with
    | nil =>
      simp at hx
      subst hx
      simp [List.getLast]
    | cons b u =>
      rw [List.getLast_cons (List.cons_ne_nil b u)]
      rcases List.mem_cons.mp hx with hxa | hxt
      · subst hxa
        exact ha _ (List.getLast_mem (List.cons_ne_nil b u))
      · exact ih (List.cons_ne_nil b u) hst x hxt

theorem sorted_getLast_eq_listMax (S : List Nat) (h : S ≠ []) :
    (List.insertionSort (· ≤ ·) S).getLast? = some (listMax S) := by
  have hperm := List.perm_insertionSort (· ≤ ·) S
  have hsort := List.sorted_insertionSort (· ≤ ·) S
  have hne : List.insertionSort (· ≤ ·) S ≠ [] := by
    intro hc
    have hlen := hperm.length_eq
    rw [hc] at hlen
    exact h (List.length_eq_zero.mp hlen.symm)
  rw [List.getLast?_eq_getLast _ hne]
  congr 1
  apply Nat.le_antisymm
  · exact le_listMax S _ (hperm.mem_iff.mp (List.getLast_mem hne))
  · exact sorted_le_getLast _ hne hsort (listMax S)
      (hperm.mem_iff.mpr (listMax_mem S h))

/-- Claim C6: after `openMemTables` completes over a directory whose
memtable log files carry the ids `S`, `nextMemFid` is `max(S) + 1` when
`S` is non-empty and 1 when `S` is empty (the counter is zero-valued at
DB construction); and every `newMemTable` call uses the current
`nextMemFid` and then increments it, so successive new memtables get
strictly increasing file ids. -/
theorem openMemTables_nextMemFid (db : DB) (files : List (List Char))
    (S : List Nat) (db' : DB)
    (h0 : db.nextMemFid = 0) (hS : collectFids files = .ok S)
    (hopen : db.openMemTables files = .ok db') :
    ((S = [] → db'.nextMemFid = 1) ∧
     (S ≠ [] → db'.nextMemFid = listMax S + 1)) ∧
    (∀ d : DB, (d.newMemTable).1 = d.nextMemFid ∧
      (d.newMemTable).2.nextMemFid = d.nextMemFid + 1) ∧
    (∀ d : DB, ((d.newMemTable).2.newMemTable).1 > (d.newMemTable).1) := by
  refine ⟨?_, fun d => ⟨rfl, rfl⟩, fun d => by simp [DB.newMemTable]⟩
  unfold DB.openMemTables at hopen
  rw [hS] at hopen
  constructor
  · intro hSnil
    subst hSnil
    simp only [List.insertionSort, List.getLast?] at hopen
    rw [Except.ok.injEq] at hopen
    rw [← hopen]
    simp [h0]
  · intro hSne
    simp only [sorted_getLast_eq_listMax S hSne] at hopen
    rw [Except.ok.injEq] at hopen
    rw [← hopen]

/-- Claim C6 (witness): recovery over the concrete directory listing
[00003.mem, junk.txt, 00001.mem] yields next id 4, and two successive
`newMemTable` calls return ids 4 then 5. -/
theorem openMemTables_nextMemFid_witness :
    ((([3, 1] : List Nat) = [] → (DB.mk [1, 3] 4).nextMemFid = 1) ∧
     (([3, 1] : List Nat) ≠ [] →
       (DB.mk [1, 3] 4).nextMemFid = listMax [3, 1] + 1)) ∧
    (∀ d : DB, (d.newMemTable).1 = d.nextMemFid ∧
      (d.newMemTable).2.nextMemFid = d.nextMemFid + 1) ∧
    (∀ d : DB, ((d.newMemTable).2.newMemTable).1 > (d.newMemTable).1) := by
  exact openMemTables_nextMemFid (DB.mk [] 0)
    [['0', '0', '0', '0', '3', '.', 'm', 'e', 'm'],
     ['j', 'u', 'n', 'k', '.', 't', 'x', 't'],
     ['0', '0', '0', '0', '1', '.', 'm', 'e', 'm']] [3, 1] (DB.mk [1, 3] 4)
    rfl (by decide) (by decide)

/-! ## Codec lemmas (claims C4, C9, C10) -/

theorem keystreamXor_length (f : Nat → Nat) :
    ∀ (i : Nat) (l : List Nat), (keystreamXor f i l).length = l.length := by
  intro i l
  induction l generalizing i with
  | nil => simp [keystreamXor]
  | cons b rest ih => simp [keystreamXor, ih]

theorem be32_length (n : Nat) : (be32 n).length = 4 := rfl

theorem be64_length (n : Nat) : (be64 n).length = 8 := rfl

theorem encodeEntry_ok_shape (ks : List Nat → List Nat → Nat → Nat)
    (lf : logFile) (e : Entry) (off : Nat) (out : List Nat) (n : Nat)
    (h : lf.encodeEntry ks e off = .ok (out, n)) :
    ∃ payload, payload.length = e.Key.length + e.Value.length ∧
      out = (entryHeader e).Encode ++ payload ++
        be32 (crc32c ((entryHeader e).Encode ++ payload)) ∧
      n = (entryHeader e).Encode.length + e.Key.length + e.Value.length + 4 ∧
      ((lf.dataKey = none ∧ payload = e.Key ++ e.Value) ∨
       (∃ dk, lf.dataKey = some dk ∧
         payload = keystreamXor (fun i => ks dk.Data (lf.generateIV off) i) 0
           (e.Key ++ e.Value))) := by
  unfold logFile.encodeEntry at h
  cases hdk : lf.dataKey with
  | none =>
    rw [hdk] at h
    simp only [Except.ok.injEq, Prod.mk.injEq] at h
    refine ⟨e.Key ++ e.Value, by simp, ?_, ?_, Or.inl ⟨rfl, rfl⟩⟩
    · rw [← h.1]
      simp [List.append_assoc]
    · omega
  | some dk =>
    simp only [logFile.encodeEntry, hdk, xorBlockStream] at h
    by_cases hks : aesKeySizeOk dk.Data
    · rw [if_pos hks] at h
      simp only [] at h
      simp only [Except.ok.injEq, Prod.mk.injEq] at h
      refine ⟨keystreamXor (fun i => ks dk.Data (lf.generateIV off) i) 0
        (e.Key ++ e.Value), ?_, ?_, ?_, Or.inr ⟨dk, rfl, rfl⟩⟩
      · rw [keystreamXor_length]
        simp
      · rw [← h.1]
      · omega
    · rw [if_neg hks] at h
      simp at h

/-- Claim C4: the 4-byte big-endian CRC trailer written by
`encodeEntry` is the CRC-32C checksum of exactly the header, key and
value bytes as they appear in the output buffer — the ciphertext of key
and value when encryption is enabled — and the CRC bytes themselves are
not part of the checksummed input. -/
theorem encodeEntry_crc_trailer (ks : List Nat → List Nat → Nat → Nat)
    (lf : logFile) (e : Entry) (off : Nat) (out : List Nat) (n : Nat)
    (h : lf.encodeEntry ks e off = .ok (out, n)) :
    out.length = n ∧
    ∃ body, body.length = n - 4 ∧ out = body ++ be32 (crc32c body) ∧
      ∃ payload, body = (entryHeader e).Encode ++ payload ∧
        ((lf.dataKey = none ∧ payload = e.Key ++ e.Value) ∨
         (∃ dk, lf.dataKey = some dk ∧
           payload = keystreamXor (fun i => ks dk.Data (lf.generateIV off) i) 0
             (e.Key ++ e.Value))) := by
  obtain ⟨payload, hlen, hout, hn, hbranch⟩ := encodeEntry_ok_shape ks lf e off out n h
  constructor
  · rw [hout, hn]
    simp only [List.length_append, be32_length, hlen]
    omega
  · refine ⟨(entryHeader e).Encode ++ payload, ?_,
      by rw [hout, List.append_assoc], payload, rfl, hbranch⟩
    simp only [List.length_append, hlen, hn]
    omega

theorem encodeEntry_ok_length (ks : List Nat → List Nat → Nat → Nat)
    (lf : logFile) (e : Entry) (off : Nat) (out : List Nat) (n : Nat)
    (h : lf.encodeEntry ks e off = .ok (out, n)) : out.length = n := by
  obtain ⟨payload, hlen, hout, hn, _⟩ := encodeEntry_ok_shape ks lf e off out n h
  rw [hout, hn]
  simp only [List.length_append, be32_length, hlen]
  omega

theorem copyAt_eq_splice (data src : List Nat) (pos : Nat)
    (h : pos + src.length ≤ data.length) :
    copyAt data pos src =
      data.take pos ++ src ++ data.drop (pos + src.length) := by
  unfold copyAt
  congr 2
  exact List.take_of_length_le (by omega)

/-- Claim C10: a successful `writeEntry` encodes the record with the
pre-call `writeAt` as the IV-derivation offset (the record's starting
position), splices exactly the encoded bytes into the mapped region at
that position, and advances `writeAt` by exactly the encoded length, so
the next record starts immediately after this one. -/
theorem writeEntry_contiguous (ks : List Nat → List Nat → Nat → Nat)
    (lf : logFile) (e : Entry) (lf' : logFile)
    (h : lf.writeEntry ks e = .ok lf') :
    ∃ out plen, lf.encodeEntry ks e lf.writeAt = .ok (out, plen) ∧
      out.length = plen ∧
      lf'.writeAt = lf.writeAt + plen ∧
      lf'.Data = copyAt lf.Data lf.writeAt out ∧
      (lf.writeAt + plen ≤ lf.Data.length →
        lf'.Data =
          lf.Data.take lf.writeAt ++ out ++ lf.Data.drop (lf.writeAt + plen)) := by
  unfold logFile.writeEntry at h
  cases henc : lf.encodeEntry ks e lf.writeAt with
  | error c =>
    rw [henc] at h
    exact absurd h (by simp)
  | ok p =>
    obtain ⟨bytes, plen⟩ := p
    rw [henc] at h
    simp only [Except.ok.injEq] at h
    have hblen : bytes.length = plen :=
      encodeEntry_ok_length ks lf e lf.writeAt bytes plen henc
    subst h
    refine ⟨bytes, plen, rfl, hblen, rfl, rfl, ?_⟩
    intro hcap
    show copyAt lf.Data lf.writeAt bytes = _
    rw [← hblen] at hcap ⊢
    exact copyAt_eq_splice lf.Data bytes lf.writeAt hcap

/-- Claim C9: the 20-byte file header (8-byte big-endian key id then
the 12-byte base IV) is written by `bootstrap` at creation, which
touches nothing beyond those 20 bytes; and the other mutating
operations preserve those bytes: `writeEntry` (whose append cursor sits
at or past 20) and `reset` (which zeroes exactly `[20, writeAt)` and
rewinds `writeAt` to 20) leave the first 20 bytes unchanged (`iterate`
does not write the mapped region at all in this embedding). -/
theorem header_bytes_frame (lf : logFile) (dk : Option DataKey) (iv : List Nat)
    (hiv : iv.length = 12) (hdata : vlogHeaderSize ≤ lf.Data.length) :
    ((lf.bootstrap dk iv).Data.take vlogHeaderSize =
        be64 (lf.bootstrap dk iv).keyID ++ iv ∧
     (lf.bootstrap dk iv).Data.drop vlogHeaderSize =
        lf.Data.drop vlogHeaderSize) ∧
    (∀ (ks : List Nat → List Nat → Nat → Nat) (e : Entry) (lf' : logFile),
      vlogHeaderSize ≤ lf.writeAt → lf.writeEntry ks e = .ok lf' →
      lf'.Data.take vlogHeaderSize = lf.Data.take vlogHeaderSize) ∧
    (lf.reset.Data.take vlogHeaderSize = lf.Data.take vlogHeaderSize ∧
     lf.reset.writeAt = vlogHeaderSize ∧
     lf.reset.Data = zeroOut lf.Data vlogHeaderSize lf.writeAt) := by
  have hd20 : (20 : Nat) ≤ lf.Data.length := hdata
  have hbuf : ∀ k : Nat, (be64 k ++ iv).length = 20 := by
    intro k
    simp [be64_length, hiv]
  constructor
  · constructor
    · show (copyAt lf.Data 0 (be64 (lf.bootstrap dk iv).keyID ++ iv)).take 20 = _
      unfold copyAt
      have h1 : List.take (lf.Data.length - 0)
          (be64 (lf.bootstrap dk iv).keyID ++ iv) =
          be64 (lf.bootstrap dk iv).keyID ++ iv :=
        List.take_of_length_le (by rw [hbuf]; omega)
      rw [List.take_zero, List.nil_append, h1]
      exact List.take_left' (hbuf _)
    · show (copyAt lf.Data 0 (be64 (lf.bootstrap dk iv).keyID ++ iv)).drop 20 = _
      unfold copyAt
      have h1 : List.take (lf.Data.length - 0)
          (be64 (lf.bootstrap dk iv).keyID ++ iv) =
          be64 (lf.bootstrap dk iv).keyID ++ iv :=
        List.take_of_length_le (by rw [hbuf]; omega)
      rw [List.take_zero, List.nil_append, h1, List.drop_left' (hbuf _), hbuf]
      rfl
  constructor
  · intro ks e lf' hwa h
    have hwa20 : (20 : Nat) ≤ lf.writeAt := hwa
    unfold logFile.writeEntry at h
    cases henc : lf.encodeEntry ks e lf.writeAt with
    | error c =>
      rw [henc] at h
      exact absurd h (by simp)
    | ok p =>
      obtain ⟨bytes, plen⟩ := p
      rw [henc] at h
      simp only [Except.ok.injEq] at h
      subst h
      show (copyAt lf.Data lf.writeAt bytes).take 20 = _
      unfold copyAt
      have l2 : (20 : Nat) ≤ (List.take lf.writeAt lf.Data ++
          List.take (lf.Data.length - lf.writeAt) bytes).length := by
        rw [List.length_append, List.length_take]
        omega
      have l1 : (20 : Nat) ≤ (List.take lf.writeAt lf.Data).length := by
        rw [List.length_take]
        omega
      rw [List.take_append_of_le_length l2, List.take_append_of_le_length l1,
        List.take_take, Nat.min_eq_left hwa20]
      rfl
  · refine ⟨?_, rfl, rfl⟩
    show (zeroOut lf.Data vlogHeaderSize lf.writeAt).take 20 = _
    unfold zeroOut
    have l1 : (20 : Nat) ≤ (List.take vlogHeaderSize lf.Data).length := by
      rw [List.length_take]
      show 20 ≤ min 20 lf.Data.length
      omega
    have l2 : (20 : Nat) ≤ (List.take vlogHeaderSize lf.Data ++
        List.replicate (min lf.writeAt lf.Data.length - vlogHeaderSize) 0).length := by
      rw [List.length_append]
      omega
    rw [List.take_append_of_le_length l2, List.take_append_of_le_length l1,
      List.take_take]
    rfl

set_option maxRecDepth 8000 in
/-- Claim C4 (witness): the CRC-trailer theorem applied to the concrete
encrypted record `eW` on `lfEnc`. -/
theorem encodeEntry_crc_trailer_witness :
    lfEnc.encodeEntry ksW eW 20 = .ok (outC4, 13) ∧
    (outC4.length = 13 ∧
     ∃ body, body.length = 13 - 4 ∧ outC4 = body ++ be32 (crc32c body) ∧
       ∃ payload, body = (entryHeader eW).Encode ++ payload ∧
         ((lfEnc.dataKey = none ∧ payload = eW.Key ++ eW.Value) ∨
          (∃ dk, lfEnc.dataKey = some dk ∧
            payload = keystreamXor (fun i => ksW dk.Data (lfEnc.generateIV 20) i) 0
              (eW.Key ++ eW.Value)))) :=
  ⟨by decide, encodeEntry_crc_trailer ksW lfEnc eW 20 outC4 13 (by decide)⟩

set_option maxRecDepth 8000 in
/-- Claim C10 (witness): the contiguous-append theorem applied to the
concrete write of `eW` on `lfPlain`. -/
theorem writeEntry_contiguous_witness :
    lfPlain.writeEntry ksW eW = .ok lfW10 ∧
    (∃ out plen, lfPlain.encodeEntry ksW eW lfPlain.writeAt = .ok (out, plen) ∧
      out.length = plen ∧
      lfW10.writeAt = lfPlain.writeAt + plen ∧
      lfW10.Data = copyAt lfPlain.Data lfPlain.writeAt out ∧
      (lfPlain.writeAt + plen ≤ lfPlain.Data.length →
        lfW10.Data = lfPlain.Data.take lfPlain.writeAt ++ out ++
          lfPlain.Data.drop (lfPlain.writeAt + plen))) :=
  ⟨by decide, writeEntry_contiguous ksW lfPlain eW lfW10 (by decide)⟩

/-- Claim C9 (witness): the header-frame theorem applied to `lfPlain`
with the concrete data key `dkW` and a concrete 12-byte IV. -/
theorem header_bytes_frame_witness :
    (((lfPlain.bootstrap (some dkW) (List.replicate 12 5)).Data.take
        vlogHeaderSize =
        be64 (lfPlain.bootstrap (some dkW) (List.replicate 12 5)).keyID ++
          List.replicate 12 5 ∧
      (lfPlain.bootstrap (some dkW) (List.replicate 12 5)).Data.drop
        vlogHeaderSize = lfPlain.Data.drop vlogHeaderSize) ∧
     (∀ (ks : List Nat → List Nat → Nat → Nat) (e : Entry) (lf' : logFile),
       vlogHeaderSize ≤ lfPlain.writeAt → lfPlain.writeEntry ks e = .ok lf' →
       lf'.Data.take vlogHeaderSize = lfPlain.Data.take vlogHeaderSize) ∧
     (lfPlain.reset.Data.take vlogHeaderSize =
        lfPlain.Data.take vlogHeaderSize ∧
      lfPlain.reset.writeAt = vlogHeaderSize ∧
      lfPlain.reset.Data = zeroOut lfPlain.Data vlogHeaderSize lfPlain.writeAt)) :=
  header_bytes_frame lfPlain (some dkW) (List.replicate 12 5)
    (by decide) (by decide)

/-- Claim C5: `Put` appends to the WAL first; if the append fails, Put
returns the wrapped error and leaves the memtable — in particular the
sorted map — unchanged; if the append succeeds, Put inserts the
key/value into the sorted map and returns nil. -/
theorem Put_wal_gates_insert (ks : List Nat → List Nat → Nat → Nat)
    (mt : memTable) (key : List Nat) (v : ValueStruct) :
    (∀ c, mt.wal.writeEntry ks
        ⟨key, v.Value, v.Meta, v.UserMeta, v.ExpiresAt, 0, 0⟩ = .error c →
      mt.Put ks key v =
        (mt, some (.wrap (.raw c) "cannot write entry to WAL file"))) ∧
    (∀ wal₂, mt.wal.writeEntry ks
        ⟨key, v.Value, v.Meta, v.UserMeta, v.ExpiresAt, 0, 0⟩ = .ok wal₂ →
      mt.Put ks key v =
        ({ mt with wal := wal₂, sl := sklPut mt.sl key v }, none)) := by
  constructor
  · intro c h
    simp only [memTable.Put, h]
  · intro wal₂ h
    simp only [memTable.Put, h]

set_option maxRecDepth 8000 in
/-- Claim C5 (witness): the Put theorem applied to a failing append
(`mtBad`, whose data key has an invalid AES length) and to a successful
append on `mtW`. -/
theorem Put_wal_gates_insert_witness :
    mtBad.Put ksW [1, 2] vsW =
      (mtBad, some (.wrap (.raw errAesKeySize)
        "cannot write entry to WAL file")) ∧
    mtW.Put ksW [1, 2] vsW =
      ({ mtW with
          wal := ⟨List.replicate 20 0 ++
              [2, 2, 0, 0, 2, 1, 2, 42, 43, 90, 234, 90, 208] ++
              List.replicate 31 0,
            "00001.mem", 1, none, List.replicate 12 5, 33⟩,
          sl := sklPut mtW.sl [1, 2] vsW }, none) :=
  ⟨(Put_wal_gates_insert ksW mtBad [1, 2] vsW).1 errAesKeySize (by decide),
   (Put_wal_gates_insert ksW mtW [1, 2] vsW).2
     ⟨List.replicate 20 0 ++ [2, 2, 0, 0, 2, 1, 2, 42, 43, 90, 234, 90, 208] ++
        List.replicate 31 0,
      "00001.mem", 1, none, List.replicate 12 5, 33⟩ (by decide)⟩

/-! ## Round-trip lemmas (claim C3) -/

theorem uvarintDec_putUvarint (n : Nat) : ∀ (tail : List Nat),
    uvarintDec (putUvarint n ++ tail) = some (n, (putUvarint n).length) := by
  induction n using Nat.strong_induction_on with
  | _ n ih =>
    intro tail
    rw [putUvarint_eq]
    by_cases hn : n < 128
    · rw [if_pos hn]
      simp [uvarintDec, hn]
    · rw [if_neg hn, List.cons_append]
      have hdiv : n / 128 < n := Nat.div_lt_self (by omega) (by omega)
      have hb : ¬ (n % 128 + 128 < 128) := by omega
      unfold uvarintDec
      rw [if_neg hb, ih (n / 128) hdiv tail]
      simp only [Option.some.injEq, Prod.mk.injEq, List.length_cons]
      exact ⟨by omega, trivial⟩

theorem keystreamXor_involution (f : Nat → Nat) :
    ∀ (i : Nat) (l : List Nat), keystreamXor f i (keystreamXor f i l) = l := by
  intro i l
  induction l generalizing i with
  | nil => rfl
  | cons b rest ih =>
    simp only [keystreamXor, ih]
    rw [Nat.xor_assoc, Nat.xor_self, Nat.xor_zero]

theorem headerDecode_encode (h : header) (tail : List Nat) :
    header.Decode (h.Encode ++ tail) = some (h, h.Encode.length) := by
  have habc : h.Encode ++ tail =
      putUvarint h.klen ++ (putUvarint h.vlen ++ (putUvarint h.expiresAt ++
        (h.meta :: h.userMeta :: tail))) := by
    simp [header.Encode, List.append_assoc]
  have hd1 : (putUvarint h.klen ++ (putUvarint h.vlen ++
      (putUvarint h.expiresAt ++ (h.meta :: h.userMeta :: tail)))).drop
        (putUvarint h.klen).length =
      putUvarint h.vlen ++ (putUvarint h.expiresAt ++
        (h.meta :: h.userMeta :: tail)) := List.drop_left _ _
  have hd2 : (putUvarint h.klen ++ (putUvarint h.vlen ++
      (putUvarint h.expiresAt ++ (h.meta :: h.userMeta :: tail)))).drop
        ((putUvarint h.klen).length + (putUvarint h.vlen).length) =
      putUvarint h.expiresAt ++ (h.meta :: h.userMeta :: tail) := by
    rw [← List.length_append, ← List.append_assoc]
    exact List.drop_left _ _
  have hd3 : (putUvarint h.klen ++ (putUvarint h.vlen ++
      (putUvarint h.expiresAt ++ (h.meta :: h.userMeta :: tail)))).drop
        ((putUvarint h.klen).length + (putUvarint h.vlen).length +
          (putUvarint h.expiresAt).length) =
      h.meta :: h.userMeta :: tail := by
    rw [← List.length_append, ← List.length_append, ← List.append_assoc,
      ← List.append_assoc]
    exact List.drop_left _ _
  simp only [header.Decode, habc, uvarintDec_putUvarint, hd1, hd2, hd3]
  simp only [Option.some.injEq, Prod.mk.injEq]
  constructor
  · trivial
  · simp [header.Encode]
    omega

/-- Claim C3: with encryption enabled (a data key of valid AES length),
decoding the bytes `encodeEntry` produced at the same offset — without
the CRC trailer — returns the original key, value, meta, user-meta and
expiry byte-for-byte (the bounds are the Go types' ranges: lengths in
32 bits, expiry in 64 bits, meta bytes in 8 bits). -/
theorem encodeDecode_roundtrip (ks : List Nat → List Nat → Nat → Nat)
    (lf : logFile) (dk : DataKey) (e : Entry) (off : Nat)
    (hdk : lf.dataKey = some dk)
    (hkey : dk.Data.length = 16 ∨ dk.Data.length = 24 ∨ dk.Data.length = 32)
    (hk : e.Key.length < 2 ^ 32) (hv : e.Value.length < 2 ^ 32)
    (hx : e.ExpiresAt < 2 ^ 64) (hm : e.meta < 256) (hu : e.UserMeta < 256) :
    ∃ out n, lf.encodeEntry ks e off = .ok (out, n) ∧
      ∃ d, lf.decodeEntry ks (out.take (n - 4)) off = .ok d ∧
        d.Key = e.Key ∧ d.Value = e.Value ∧ d.meta = e.meta ∧
        d.UserMeta = e.UserMeta ∧ d.ExpiresAt = e.ExpiresAt := by
  have hks : aesKeySizeOk dk.Data = true := by
    unfold aesKeySizeOk
    rcases hkey with h | h | h <;> simp [h]
  have hH : entryHeader e =
      ⟨e.Key.length, e.Value.length, e.ExpiresAt, e.meta, e.UserMeta⟩ := by
    unfold entryHeader
    congr 1 <;> omega
  have henc : lf.encodeEntry ks e off =
      .ok ((header.mk e.Key.length e.Value.length e.ExpiresAt e.meta
              e.UserMeta).Encode ++
            keystreamXor (fun i => ks dk.Data (lf.generateIV off) i) 0
              (e.Key ++ e.Value) ++
            be32 (crc32c ((header.mk e.Key.length e.Value.length e.ExpiresAt
              e.meta e.UserMeta).Encode ++
              keystreamXor (fun i => ks dk.Data (lf.generateIV off) i) 0
                (e.Key ++ e.Value))),
        (header.mk e.Key.length e.Value.length e.ExpiresAt e.meta
          e.UserMeta).Encode.length + e.Key.length + e.Value.length + 4) := by
    simp only [logFile.encodeEntry, xorBlockStream, hdk, hks, if_true, hH]
  refine ⟨_, _, henc, ?_⟩
  have hctlen : (keystreamXor (fun i => ks dk.Data (lf.generateIV off) i) 0
      (e.Key ++ e.Value)).length = e.Key.length + e.Value.length := by
    rw [keystreamXor_length]
    simp
  have harith : (header.mk e.Key.length e.Value.length e.ExpiresAt e.meta
        e.UserMeta).Encode.length + e.Key.length + e.Value.length + 4 - 4 =
      ((header.mk e.Key.length e.Value.length e.ExpiresAt e.meta
        e.UserMeta).Encode ++
        keystreamXor (fun i => ks dk.Data (lf.generateIV off) i) 0
          (e.Key ++ e.Value)).length := by
    rw [List.length_append, hctlen]
    omega
  rw [harith, List.take_left]
  refine ⟨⟨e.Key, e.Value, e.meta, e.UserMeta, e.ExpiresAt, off,
    (header.mk e.Key.length e.Value.length e.ExpiresAt e.meta
      e.UserMeta).Encode.length⟩, ?_, rfl, rfl, rfl, rfl, rfl⟩
  simp only [logFile.decodeEntry, headerDecode_encode, List.drop_left, hdk,
    xorBlockStream, if_pos hks, keystreamXor_involution]
  simp only [Except.ok.injEq, Entry.mk.injEq]
  simp [List.take_left, List.take_length]

/-- Claim C3 (witness): the round-trip theorem applied to the concrete
entry `eW` on the encrypted log file `lfEnc` at offset 20. -/
theorem encodeDecode_roundtrip_witness :
    ∃ out n, lfEnc.encodeEntry ksW eW 20 = .ok (out, n) ∧
      ∃ d, lfEnc.decodeEntry ksW (out.take (n - 4)) 20 = .ok d ∧
        d.Key = eW.Key ∧ d.Value = eW.Value ∧ d.meta = eW.meta ∧
        d.UserMeta = eW.UserMeta ∧ d.ExpiresAt = eW.ExpiresAt :=
  encodeDecode_roundtrip ksW lfEnc dkW eW 20 rfl (by decide) (by decide)
    (by decide) (by decide) (by decide) (by decide)

/-! ## Decimal round-trip lemmas (for FIN_TXN values) -/

theorem decDigits_ne_nil (n : Nat) : decDigits n ≠ [] := by
  rw [decDigits_eq]
  by_cases h : n < 10
  · rw [if_pos h]
    simp
  · rw [if_neg h]
    simp

theorem decDigits_lt_ten (n : Nat) : ∀ d ∈ decDigits n, d < 10 := by
  induction n using Nat.strong_induction_on with
  | _ n ih =>
    rw [decDigits_eq]
    by_cases h : n < 10
    · rw [if_pos h]
      simp [h]
    · rw [if_neg h]
      intro d hd
      rcases List.mem_append.mp hd with hd | hd
      · exact ih (n / 10) (Nat.div_lt_self (by omega) (by omega)) d hd
      · simp at hd
        omega

theorem asciiDec_foldl (n : Nat) : ∀ a : Nat,
    (asciiDec n).foldl (fun a b => a * 10 + (b - 48)) a =
      a * 10 ^ (decDigits n).length + n := by
  induction n using Nat.strong_induction_on with
  | _ n ih =>
    intro a
    unfold asciiDec
    rw [decDigits_eq]
    by_cases h : n < 10
    · rw [if_pos h]
      simp
    · rw [if_neg h]
      have hdiv : n / 10 < n := Nat.div_lt_self (by omega) (by omega)
      rw [List.map_append, List.foldl_append]
      have hfront := ih (n / 10) hdiv a
      unfold asciiDec at hfront
      rw [hfront]
      simp only [List.map, List.foldl]
      have hmod : n % 10 + 48 - 48 = n % 10 := by omega
      rw [hmod, List.length_append, List.length_cons, List.length_nil]
      have hdm : n / 10 * 10 + n % 10 = n := by omega
      calc (a * 10 ^ (decDigits (n / 10)).length + n / 10) * 10 + n % 10
          = a * (10 ^ (decDigits (n / 10)).length * 10) +
              (n / 10 * 10 + n % 10) := by ring
        _ = a * 10 ^ ((decDigits (n / 10)).length + 1) + n := by
            rw [hdm, pow_succ]

theorem parseUintDec_asciiDec (t : Nat) (ht : t < 2 ^ 64) :
    parseUintDec (asciiDec t) = some t := by
  unfold parseUintDec
  have hne : (asciiDec t).isEmpty = false := by
    unfold asciiDec
    cases hd : decDigits t with
    | nil => exact absurd hd (decDigits_ne_nil t)
    | cons a l => simp
  rw [hne]
  have hall : (asciiDec t).all isDigitByte = true := by
    rw [List.all_eq_true]
    intro b hb
    unfold asciiDec at hb
    rcases List.mem_map.mp hb with ⟨d, hd, hdb⟩
    have := decDigits_lt_ten t d hd
    unfold isDigitByte
    subst hdb
    simp
    omega
  rw [hall]
  simp only [Bool.false_eq_true, if_false, if_true]
  have := asciiDec_foldl t 0
  rw [this]
  simp only [Nat.zero_mul, Nat.zero_add]
  rw [if_pos ht]

/-! ## Replay-iterator lemmas (claims C1, C2) -/

theorem isZero_false_of_meta_bit (e : Entry) (b : Nat)
    (h : e.meta &&& b ≠ 0) : e.isZero = false := by
  have hm : e.meta ≠ 0 := by
    intro h0
    rw [h0] at h
    simp at h
  unfold Entry.isZero
  simp [hm]

theorem iterLoop_cons_rcd (fn : Entry → valuePointer → FnResult)
    (fid : Nat) (path : String) (e : Entry) (rest : List ReadItem)
    (off lc veo : Nat) (staged : List (Entry × valuePointer)) :
    iterLoop fn fid path (.rcd e :: rest) off lc veo staged =
      if e.isZero then ([], .ok veo)
      else
        if e.meta &&& bitTxn ≠ 0 then
          if (if lc = 0 then parseTs e.Key else lc) ≠ parseTs e.Key then
            ([], .ok veo)
          else
            iterLoop fn fid path rest (off + recLen e)
              (if lc = 0 then parseTs e.Key else lc) veo
              (staged ++ [({ e with offset := off }, ⟨fid, recLen e, off⟩)])
        else if e.meta &&& bitFinTxn ≠ 0 then
          match parseUintDec e.Value with
          | none => ([], .ok veo)
          | some ts =>
            if lc ≠ ts then ([], .ok veo)
            else
              match flushGroup fn staged with
              | (called, some c) =>
                (called, .error (.file c path "Iteration function"))
              | (called, none) =>
                (called ++ (iterLoop fn fid path rest (off + recLen e) 0
                    (off + recLen e) []).1,
                  (iterLoop fn fid path rest (off + recLen e) 0
                    (off + recLen e) []).2)
        else
          if lc ≠ 0 then ([], .ok veo)
          else
            match fn { e with offset := off } ⟨fid, recLen e, off⟩ with
            | .err c =>
              ([({ e with offset := off }, ⟨fid, recLen e, off⟩)],
                .error (.file c path "Iteration function"))
            | .ok =>
              (({ e with offset := off }, ⟨fid, recLen e, off⟩) ::
                  (iterLoop fn fid path rest (off + recLen e) 0
                    (off + recLen e) []).1,
                (iterLoop fn fid path rest (off + recLen e) 0
                  (off + recLen e) []).2)
            | .stop =>
              (({ e with offset := off }, ⟨fid, recLen e, off⟩) ::
                  (iterLoop fn fid path rest (off + recLen e) 0
                    (off + recLen e) []).1,
                (iterLoop fn fid path rest (off + recLen e) 0
                  (off + recLen e) []).2) := rfl

theorem iterLoop_txn_step (fn : Entry → valuePointer → FnResult)
    (fid : Nat) (path : String) (e : Entry) (rest : List ReadItem)
    (off lc veo : Nat) (staged : List (Entry × valuePointer)) (u : Nat)
    (htxn : isTxnRec u e = true) (hlc : lc = 0 ∨ lc = u) :
    iterLoop fn fid path (.rcd e :: rest) off lc veo staged =
      iterLoop fn fid path rest (off + recLen e) u veo
        (staged ++ [({ e with offset := off }, ⟨fid, recLen e, off⟩)]) := by
  unfold isTxnRec at htxn
  simp only [Bool.and_eq_true, bne_iff_ne, ne_eq, beq_iff_eq] at htxn
  obtain ⟨hbit, hts⟩ := htxn
  have hz : e.isZero = false := isZero_false_of_meta_bit e bitTxn hbit
  rw [iterLoop_cons_rcd, if_neg (by simp [hz]), if_pos hbit]
  have hlc' : (if lc = 0 then parseTs e.Key else lc) = u := by
    rcases hlc with h | h
    · rw [if_pos h, hts]
    · by_cases h0 : lc = 0
      · rw [if_pos h0, hts]
      · rw [if_neg h0]
        exact h
  rw [hlc', hts, if_neg (fun hc => hc rfl)]

theorem iterLoop_fin_step (fn : Entry → valuePointer → FnResult)
    (fid : Nat) (path : String) (f : Entry) (rest : List ReadItem)
    (off veo : Nat) (staged : List (Entry × valuePointer)) (t : Nat)
    (hfin : isFinRec t f = true) (ht : t < 2 ^ 64) :
    iterLoop fn fid path (.rcd f :: rest) off t veo staged =
      match flushGroup fn staged with
      | (called, some c) => (called, .error (.file c path "Iteration function"))
      | (called, none) =>
        (called ++ (iterLoop fn fid path rest (off + recLen f) 0
            (off + recLen f) []).1,
          (iterLoop fn fid path rest (off + recLen f) 0
            (off + recLen f) []).2) := by
  unfold isFinRec at hfin
  simp only [Bool.and_eq_true, bne_iff_ne, ne_eq, beq_iff_eq] at hfin
  obtain ⟨⟨hbit0, hbitF⟩, hval⟩ := hfin
  have hz : f.isZero = false := isZero_false_of_meta_bit f bitFinTxn hbitF
  rw [iterLoop_cons_rcd, if_neg (by simp [hz]), if_neg (by simp [hbit0]),
    if_pos hbitF, hval, parseUintDec_asciiDec t ht]
  simp

theorem iterLoop_plain_step_ok (fn : Entry → valuePointer → FnResult)
    (fid : Nat) (path : String) (e : Entry) (rest : List ReadItem)
    (off veo : Nat) (staged : List (Entry × valuePointer))
    (hp : isPlainRec e = true)
    (hok : fn { e with offset := off } ⟨fid, recLen e, off⟩ = .ok) :
    iterLoop fn fid path (.rcd e :: rest) off 0 veo staged =
      (({ e with offset := off }, ⟨fid, recLen e, off⟩) ::
          (iterLoop fn fid path rest (off + recLen e) 0 (off + recLen e) []).1,
        (iterLoop fn fid path rest (off + recLen e) 0 (off + recLen e) []).2) := by
  unfold isPlainRec at hp
  simp only [Bool.and_eq_true, Bool.not_eq_true', beq_iff_eq] at hp
  obtain ⟨⟨hbit0, hbitF0⟩, hz⟩ := hp
  rw [iterLoop_cons_rcd, if_neg (by simp [hz]), if_neg (by simp [hbit0]),
    if_neg (by simp [hbitF0]), if_neg (fun hc => hc rfl), hok]

theorem flushGroup_all_ok (fn : Entry → valuePointer → FnResult)
    (hfn : ∀ e vp, fn e vp = .ok) :
    ∀ staged, flushGroup fn staged = (staged, none) := by
  intro staged
  induction staged with
  | nil => rfl
  | cons p rest ih =>
    obtain ⟨e, vp⟩ := p
    simp only [flushGroup, hfn e vp, ih]

theorem iterLoop_txnRun (fn : Entry → valuePointer → FnResult)
    (fid : Nat) (path : String) (u : Nat) :
    ∀ (run : List Entry) (off lc veo : Nat)
      (staged : List (Entry × valuePointer)),
    (∀ e ∈ run, isTxnRec u e = true) → (lc = 0 ∨ lc = u) →
    iterLoop fn fid path (recStream run) off lc veo staged = ([], .ok veo) := by
  intro run
  induction run with
  | nil => intro off lc veo staged _ _; rfl
  | cons e rest ih =>
    intro off lc veo staged hall hlc
    have he := hall e (List.mem_cons_self e rest)
    rw [show recStream (e :: rest) = .rcd e :: recStream rest from rfl,
      iterLoop_txn_step fn fid path e (recStream rest) off lc veo staged u he hlc]
    exact ih _ _ _ _ (fun x hx => hall x (List.mem_cons_of_mem e hx)) (Or.inr rfl)

theorem runLen_cons (e : Entry) (rest : List Entry) :
    runLen (e :: rest) = recLen e + runLen rest := rfl

theorem iterLoop_group (fn : Entry → valuePointer → FnResult)
    (fid : Nat) (path : String) (hfn : ∀ e vp, fn e vp = .ok)
    (t : Nat) (ht : t < 2 ^ 64) :
    ∀ (es : List Entry) (f : Entry) (rest : List ReadItem)
      (off lc veo : Nat) (staged : List (Entry × valuePointer)),
    es ≠ [] → (∀ e ∈ es, isTxnRec t e = true) → isFinRec t f = true →
    (lc = 0 ∨ lc = t) →
    iterLoop fn fid path (recStream es ++ (.rcd f :: rest)) off lc veo staged =
      ((staged ++ stageRun fid off es) ++
          (iterLoop fn fid path rest (off + runLen es + recLen f) 0
            (off + runLen es + recLen f) []).1,
        (iterLoop fn fid path rest (off + runLen es + recLen f) 0
          (off + runLen es + recLen f) []).2) := by
  intro es
  induction es with
  | nil => intro f rest off lc veo staged hne; exact absurd rfl hne
  | cons e es ih =>
    intro f rest off lc veo staged _ hall hfin hlc
    have he := hall e (List.mem_cons_self e es)
    rw [show recStream (e :: es) ++ (.rcd f :: rest) =
        .rcd e :: (recStream es ++ (.rcd f :: rest)) from rfl,
      iterLoop_txn_step fn fid path e _ off lc veo staged t he hlc]
    by_cases hes : es = []
    · subst hes
      rw [show recStream [] ++ (ReadItem.rcd f :: rest) = .rcd f :: rest from rfl,
        iterLoop_fin_step fn fid path f rest (off + recLen e) veo _ t hfin ht,
        flushGroup_all_ok fn hfn _]
      simp [stageRun, runLen]
    · rw [ih f rest (off + recLen e) t veo _ hes
        (fun x hx => hall x (List.mem_cons_of_mem e hx)) hfin (Or.inr rfl)]
      have h1 : off + recLen e + runLen es = off + runLen (e :: es) := by
        rw [runLen_cons]
        omega
      rw [h1]
      simp [stageRun, List.append_assoc]

theorem runLen_append (l₁ l₂ : List Entry) :
    runLen (l₁ ++ l₂) = runLen l₁ + runLen l₂ := by
  induction l₁ with
  | nil => simp [runLen]
  | cons x xs ih =>
    rw [List.cons_append, runLen_cons, runLen_cons, ih]
    omega

theorem iterLoop_segs (fn : Entry → valuePointer → FnResult)
    (fid : Nat) (path : String) (hfn : ∀ e vp, fn e vp = .ok)
    (torn : List Entry) (u : Nat)
    (htorn : ∀ e ∈ torn, isTxnRec u e = true) :
    ∀ (segs : List Segment) (off : Nat),
    (∀ s ∈ segs, WFSeg s = true) →
    iterLoop fn fid path (recStream (segsEntries segs ++ torn)) off 0 off [] =
      (segsCalls fid off segs, .ok (off + segsLen segs)) := by
  intro segs
  induction segs with
  | nil =>
    intro off _
    rw [show segsEntries [] ++ torn = torn from rfl,
      iterLoop_txnRun fn fid path u torn off 0 off [] htorn (Or.inl rfl)]
    simp [segsCalls, segsLen]
  | cons s rest ih =>
    intro off hWF
    have hs := hWF s (List.mem_cons_self s rest)
    have hrest := fun x hx => hWF x (List.mem_cons_of_mem s hx)
    cases s with
    | plain e =>
      unfold WFSeg at hs
      have hstream : recStream (segsEntries (.plain e :: rest) ++ torn) =
          .rcd e :: recStream (segsEntries rest ++ torn) := by
        simp [segsEntries, segEntries, recStream]
      rw [hstream, iterLoop_plain_step_ok fn fid path e _ off off [] hs (hfn _ _),
        ih (off + recLen e) hrest]
      simp only [segsCalls, segCalls, segsLen, segLen, segEntries, runLen,
        Nat.add_zero, List.singleton_append, Prod.mk.injEq]
      exact ⟨trivial, by simp only [Except.ok.injEq]; omega⟩
    | txgroup t es f =>
      unfold WFSeg at hs
      simp only [Bool.and_eq_true, Bool.not_eq_true', decide_eq_true_eq,
        List.all_eq_true] at hs
      obtain ⟨⟨⟨hne, ht⟩, hall⟩, hfin⟩ := hs
      have hne' : es ≠ [] := by
        intro hc
        rw [hc] at hne
        simp at hne
      have hstream : recStream (segsEntries (.txgroup t es f :: rest) ++ torn) =
          recStream es ++ (.rcd f :: recStream (segsEntries rest ++ torn)) := by
        simp [segsEntries, segEntries, recStream, List.map_append,
          List.append_assoc]
      rw [hstream, iterLoop_group fn fid path hfn t ht es f _ off 0 off []
        hne' hall hfin (Or.inl rfl),
        ih (off + runLen es + recLen f) hrest]
      have hlen : off + runLen es + recLen f =
          off + segLen (.txgroup t es f) := by
        unfold segLen segEntries
        rw [runLen_append]
        simp [runLen]
        omega
      rw [hlen]
      simp only [segsCalls, segCalls, segsLen, List.nil_append, Prod.mk.injEq]
      exact ⟨trivial, by simp only [Except.ok.injEq]; omega⟩

/-- Claim C1: on a log whose post-header contents are complete
transaction groups — each a run of TXN records sharing one commit
timestamp terminated by a FIN_TXN carrying the ASCII decimal of that
timestamp, possibly interleaved with non-transactional records outside
groups — followed by a torn partial group (a run of TXN records sharing
one timestamp, cut off before any sentinel), `iterate(0, fn)` invokes
`fn` exactly on the committed prefix's entries in order, and returns
the byte offset just past the prefix's last valid record; no torn
entry is delivered and the watermark never moves past the prefix. -/
theorem iterate_replays_committed_groups (lf : logFile) (ro : Bool)
    (fn : Entry → valuePointer → FnResult) (segs : List Segment)
    (torn : List Entry) (u : Nat)
    (hWF : ∀ s ∈ segs, WFSeg s = true)
    (htorn : ∀ e ∈ torn, isTxnRec u e = true)
    (hfn : ∀ e vp, fn e vp = .ok) :
    lf.iterate ro 0 fn (recStream (segsEntries segs ++ torn)) =
      (segsCalls lf.fid vlogHeaderSize segs,
        .ok (vlogHeaderSize + segsLen segs)) := by
  unfold logFile.iterate
  rw [if_pos rfl]
  exact iterLoop_segs fn lf.fid lf.path hfn torn u htorn segs vlogHeaderSize hWF

/-- Claim C1 (witness): the replay theorem applied to the concrete log
[plain record, group of two TXN records at timestamp 9 with sentinel,
torn TXN record at timestamp 5]. -/
theorem iterate_replays_committed_groups_witness :
    (∀ e vp, fnOk e vp = FnResult.ok) ∧
    lfPlain.iterate true 0 fnOk
      (recStream (segsEntries
          [.plain pRec, .txgroup 9 [xRec, yRec] finRec] ++ [tornRec])) =
      (segsCalls lfPlain.fid vlogHeaderSize
          [.plain pRec, .txgroup 9 [xRec, yRec] finRec],
        .ok (vlogHeaderSize +
          segsLen [.plain pRec, .txgroup 9 [xRec, yRec] finRec])) :=
  ⟨fun _ _ => rfl,
   iterate_replays_committed_groups lfPlain true fnOk
     [.plain pRec, .txgroup 9 [xRec, yRec] finRec] [tornRec] 5
     (by decide) (by decide) (fun _ _ => rfl)⟩

theorem flushGroup_err (fn : Entry → valuePointer → FnResult) :
    ∀ (staged : List (Entry × valuePointer)) called c,
    flushGroup fn staged = (called, some c) → ∃ e vp, fn e vp = .err c := by
  intro staged
  induction staged with
  | nil =>
    intro called c h
    simp [flushGroup] at h
  | cons p rest ih =>
    obtain ⟨e, vp⟩ := p
    intro called c h
    unfold flushGroup at h
    cases hfn : fn e vp with
    | ok =>
      rw [hfn] at h
      simp only [Prod.mk.injEq] at h
      exact ih (flushGroup fn rest).1 c (by rw [← h.2])
    | stop =>
      rw [hfn] at h
      simp at h
    | err c' =>
      rw [hfn] at h
      simp only [Prod.mk.injEq, Option.some.injEq] at h
      exact ⟨e, vp, by rw [hfn, h.2]⟩

theorem iterLoop_res_char (fn : Entry → valuePointer → FnResult)
    (fid : Nat) (path : String) :
    ∀ (stream : List ReadItem) (off lc veo : Nat)
      (staged : List (Entry × valuePointer)),
    (((∀ e vp, fn e vp = .ok ∨ fn e vp = .stop) →
       (∀ c, ReadItem.bad c ∉ stream) →
       ∃ w, (iterLoop fn fid path stream off lc veo staged).2 = .ok w) ∧
     (∀ er, (iterLoop fn fid path stream off lc veo staged).2 = .error er →
       (∃ c, er = .raw c ∧ ReadItem.bad c ∈ stream) ∨
       (∃ e vp c, fn e vp = .err c ∧
         er = .file c path "Iteration function"))) := by
  intro stream
  induction stream with
  | nil =>
    intro off lc veo staged
    constructor
    · intro _ _
      exact ⟨veo, rfl⟩
    · intro er h
      simp [iterLoop] at h
  | cons item rest ih =>
    intro off lc veo staged
    cases item with
    | bad c =>
      constructor
      · intro _ hbad
        exact absurd (List.mem_cons_self _ _) (hbad c)
      · intro er h
        simp only [iterLoop, Except.error.injEq] at h
        exact Or.inl ⟨c, h.symm, List.mem_cons_self _ _⟩
    | rcd e =>
      have hnotbad : ∀ P : Prop, (∀ c, ReadItem.bad c ∉ (ReadItem.rcd e :: rest)) →
          ((∀ c, ReadItem.bad c ∉ rest) → P) → P :=
        fun P h k => k (fun c hc => h c (List.mem_cons_of_mem _ hc))
      rw [iterLoop_cons_rcd]
      by_cases hz : e.isZero = true
      · rw [if_pos hz]
        exact ⟨fun _ _ => ⟨veo, rfl⟩, fun er h => by simp at h⟩
      · rw [if_neg hz]
        by_cases htxn : e.meta &&& bitTxn ≠ 0
        · rw [if_pos htxn]
          by_cases hmis : (if lc = 0 then parseTs e.Key else lc) ≠ parseTs e.Key
          · rw [if_pos hmis]
            exact ⟨fun _ _ => ⟨veo, rfl⟩, fun er h => by simp at h⟩
          · rw [if_neg hmis]
            constructor
            · intro hfn hbad
              exact hnotbad _ hbad fun hbad' =>
                (ih _ _ _ _).1 hfn hbad'
            · intro er h
              rcases (ih _ _ _ _).2 er h with ⟨c, hc, hmem⟩ | hr
              · exact Or.inl ⟨c, hc, List.mem_cons_of_mem _ hmem⟩
              · exact Or.inr hr
        · rw [if_neg htxn]
          by_cases hfinb : e.meta &&& bitFinTxn ≠ 0
          · rw [if_pos hfinb]
            split
            · exact ⟨fun _ _ => ⟨veo, rfl⟩, fun er h => by simp at h⟩
            · split
              · exact ⟨fun _ _ => ⟨veo, rfl⟩, fun er h => by simp at h⟩
              · split
                · rename_i called c hfl
                  obtain ⟨e₁, vp₁, herr⟩ := flushGroup_err fn staged called c hfl
                  constructor
                  · intro hfn _
                    rcases hfn e₁ vp₁ with h1 | h1 <;> rw [herr] at h1 <;>
                      exact absurd h1 (by simp)
                  · intro er h
                    simp only [Except.error.injEq] at h
                    exact Or.inr ⟨e₁, vp₁, c, herr, h.symm⟩
                · constructor
                  · intro hfn hbad
                    exact hnotbad _ hbad fun hbad' =>
                      (ih _ _ _ _).1 hfn hbad'
                  · intro er h
                    rcases (ih _ _ _ _).2 er h with ⟨c, hc, hmem⟩ | hr
                    · exact Or.inl ⟨c, hc, List.mem_cons_of_mem _ hmem⟩
                    · exact Or.inr hr
          · rw [if_neg hfinb]
            by_cases hlc0 : lc ≠ 0
            · rw [if_pos hlc0]
              exact ⟨fun _ _ => ⟨veo, rfl⟩, fun er h => by simp at h⟩
            · rw [if_neg hlc0]
              cases hr : fn { e with offset := off } ⟨fid, recLen e, off⟩ with
              | ok =>
                constructor
                · intro hfn hbad
                  exact hnotbad _ hbad fun hbad' =>
                    (ih _ _ _ _).1 hfn hbad'
                · intro er h
                  rcases (ih _ _ _ _).2 er h with ⟨c, hc, hmem⟩ | hrr
                  · exact Or.inl ⟨c, hc, List.mem_cons_of_mem _ hmem⟩
                  · exact Or.inr hrr
              | stop =>
                constructor
                · intro hfn hbad
                  exact hnotbad _ hbad fun hbad' =>
                    (ih _ _ _ _).1 hfn hbad'
                · intro er h
                  rcases (ih _ _ _ _).2 er h with ⟨c, hc, hmem⟩ | hrr
                  · exact Or.inl ⟨c, hc, List.mem_cons_of_mem _ hmem⟩
                  · exact Or.inr hrr
              | err c =>
                constructor
                · intro hfn _
                  rcases hfn { e with offset := off } ⟨fid, recLen e, off⟩ with
                    h1 | h1 <;> rw [hr] at h1 <;> exact absurd h1 (by simp)
                · intro er h
                  simp only [Except.error.injEq] at h
                  exact Or.inr ⟨{ e with offset := off },
                    ⟨fid, recLen e, off⟩, c, hr, h.symm⟩

/-- Claim C2 (counterexample): a callback returning the stop sentinel
does NOT end the whole iteration.  On a log of two plain records with a
callback that always returns `errStop`, `iterate` still invokes the
callback on the second record and returns the watermark past it (51),
not the watermark at the first stop (35): in the non-transactional
branch the `break` only leaves the `switch`. -/
theorem iterate_errStop_cex :
    (lfPlain.iterate true 0 fnStop (recStream [pRec, qRec])).1 =
      [({ pRec with offset := 20 }, ⟨1, recLen pRec, 20⟩),
       ({ qRec with offset := 35 }, ⟨1, recLen qRec, 35⟩)] ∧
    (lfPlain.iterate true 0 fnStop (recStream [pRec, qRec])).2 = .ok 51 ∧
    ¬ ((lfPlain.iterate true 0 fnStop (recStream [pRec, qRec])).1.length = 1 ∧
       (lfPlain.iterate true 0 fnStop (recStream [pRec, qRec])).2 = .ok 35) := by
  refine ⟨rfl, rfl, ?_⟩
  intro h
  have h2 : (lfPlain.iterate true 0 fnStop (recStream [pRec, qRec])).1.length = 2 :=
    rfl
  rw [h.1] at h2
  simp at h2

/-- Claim C2 (amended): the stop sentinel never surfaces as an error —
if the callback only ever returns nil or `errStop` (and the reader hits
no fatal decode error), `iterate` returns a watermark without error;
and any error `iterate` returns is either a reader error propagated raw
or a non-stop callback error wrapped with the file path as
"Iteration function". -/
theorem iterate_fn_errors (lf : logFile) (ro : Bool) (offset : Nat)
    (fn : Entry → valuePointer → FnResult) (stream : List ReadItem) :
    ((∀ e vp, fn e vp = .ok ∨ fn e vp = .stop) →
      (∀ c, ReadItem.bad c ∉ stream) →
      ∃ w, (lf.iterate ro offset fn stream).2 = .ok w) ∧
    (∀ er, (lf.iterate ro offset fn stream).2 = .error er →
      (∃ c, er = .raw c ∧ ReadItem.bad c ∈ stream) ∨
      (∃ e vp c, fn e vp = .err c ∧
        er = .file c lf.path "Iteration function")) := by
  unfold logFile.iterate
  exact iterLoop_res_char fn lf.fid lf.path stream _ 0 _ []

/-- Claim C2 (witness): the error-propagation theorem applied to a
stop-only callback over two plain records (no error returned) and to an
always-failing callback over one plain record (the code-3 error comes
back wrapped with the file path). -/
theorem iterate_fn_errors_witness :
    (∃ w, (lfPlain.iterate true 0 fnStop (recStream [pRec, qRec])).2 =
      .ok w) ∧
    ((∃ c, (GoErr.file 3 "00001.mem" "Iteration function") = .raw c ∧
        ReadItem.bad c ∈ recStream [pRec]) ∨
     (∃ e vp c, fnErr3 e vp = .err c ∧
       (GoErr.file 3 "00001.mem" "Iteration function") =
         .file c lfPlain.path "Iteration function")) :=
  ⟨(iterate_fn_errors lfPlain true 0 fnStop (recStream [pRec, qRec])).1
      (fun _ _ => Or.inr rfl) (fun c hc => by simp [recStream] at hc),
   (iterate_fn_errors lfPlain true 0 fnErr3 (recStream [pRec])).2
      (GoErr.file 3 "00001.mem" "Iteration function") rfl⟩

/-- Claim C8: `UpdateSkipList` runs `iterate` from offset 0 with the
replay callback, whose per-entry effect raises `nextTxnTs` to the
timestamp parsed from the last 8 bytes of the key when larger and
inserts the entry into the sorted map verbatim, applied in invocation
order; afterwards the log file is truncated to the valid end offset
`iterate` returned (the effect of `doneWriting` at that offset in this
embedding). -/
theorem UpdateSkipList_replays_then_truncates (mt : memTable)
    (stream : List ReadItem) (endOff : Nat)
    (h : (mt.wal.iterate true 0 fnOk stream).2 = .ok endOff) :
    (mt.UpdateSkipList stream =
      (let mt₁ := (mt.wal.iterate true 0 fnOk stream).1.foldl
         memTable.replayStep mt
       ({ mt₁ with wal := mt₁.wal.doneWriting endOff }, none))) ∧
    (∀ (m : memTable) (e : Entry) (vp : valuePointer),
      memTable.replayStep m (e, vp) =
        { m with nextTxnTs := Nat.max m.nextTxnTs (parseTs e.Key),
                 sl := m.sl ++
                   [(e.Key, ⟨e.Value, e.meta, e.UserMeta, e.ExpiresAt⟩)] }) := by
  constructor
  · simp only [memTable.UpdateSkipList, h, logFile.doneWriting,
      logFile.TruncateFile]
  · intro m e vp
    simp only [memTable.replayStep, sklPut]
    by_cases hts : parseTs e.Key > m.nextTxnTs
    · rw [if_pos hts]
      have hmax : Nat.max m.nextTxnTs (parseTs e.Key) = parseTs e.Key :=
        Nat.max_eq_right (Nat.le_of_lt hts)
      rw [hmax]
    · rw [if_neg hts]
      have hmax : Nat.max m.nextTxnTs (parseTs e.Key) = m.nextTxnTs :=
        Nat.max_eq_left (Nat.le_of_not_lt hts)
      rw [hmax]

/-- Claim C8 (witness): the replay theorem applied to `mtW` over a
one-record stream; the valid end offset there is 35. -/
theorem UpdateSkipList_replays_then_truncates_witness :
    (mtW.UpdateSkipList (recStream [pRec]) =
      (let mt₁ := (mtW.wal.iterate true 0 fnOk (recStream [pRec])).1.foldl
         memTable.replayStep mtW
       ({ mt₁ with wal := mt₁.wal.doneWriting 35 }, none))) ∧
    (∀ (m : memTable) (e : Entry) (vp : valuePointer),
      memTable.replayStep m (e, vp) =
        { m with nextTxnTs := Nat.max m.nextTxnTs (parseTs e.Key),
                 sl := m.sl ++
                   [(e.Key, ⟨e.Value, e.meta, e.UserMeta, e.ExpiresAt⟩)] }) :=
  UpdateSkipList_replays_then_truncates mtW (recStream [pRec]) 35 rfl
